import Mathlib

set_option maxRecDepth 100000

/-!
Verification of the RTK campaign-execution engine
(`rtx_innovations_electron/src/main.js`) against its specification.

Strings are modelled as `List Char`; JavaScript's `String.prototype.replace`
with a global regex and a string replacement (including its `$`-substitution
patterns) is modelled by `jsReplaceAll`; randomness, the filesystem, the mail
provider and the spreadsheet provider are supplied as explicit environments.
All functions are executable (fuel-based where the JS loop is not structurally
recursive) so that concrete runs evaluate by `decide`/`rfl`.
-/

/-- Characters of a string literal, the `List Char` view used throughout. -/
def sl (s : String) : List Char := s.data

/-- Whitespace as recognised by JavaScript `String.prototype.trim`
(space, tab, LF, CR, vertical tab, form feed cover the characters that
occur in sheet data). -/
def isJsSpace (c : Char) : Bool :=
  c == ' ' || c == '\t' || c == '\n' || c == '\r' || c.val == 11 || c.val == 12

/-- JavaScript `String.prototype.trim`: drop whitespace from both ends. -/
def jsTrim (s : List Char) : List Char :=
  ((s.dropWhile isJsSpace).reverse.dropWhile isJsSpace).reverse

/-- JavaScript `String.prototype.includes`: `pat` occurs somewhere in `s`. -/
def containsSub : List Char → List Char → Bool
  | s@([]), pat => pat.isPrefixOf s
  | s@(_ :: t), pat => pat.isPrefixOf s || containsSub t pat

/-- Number of positions of `s` at which `pat` occurs (occurrences may overlap). -/
def countOccur : List Char → List Char → Nat
  | [], _ => 0
  | s@(_ :: t), pat => (if pat.isPrefixOf s then 1 else 0) + countOccur t pat

/-- Leftmost-match search: split `s` as `pre ++ pat ++ post` around the first
occurrence of `pat`, as a JavaScript global regex does for a literal pattern. -/
def splitFirst (pat : List Char) : List Char → Option (List Char × List Char)
  | [] => none
  | s@(c :: t) =>
    if pat.isPrefixOf s then some ([], s.drop pat.length)
    else
      match splitFirst pat t with
      | some (pre, post) => some (c :: pre, post)
      | none => none

/-- JavaScript `GetSubstitution` for a string replacement with no capture
groups: expands the patterns dollar-dollar, dollar-ampersand (matched text),
dollar-backquote (text before the match) and dollar-quote (text after the
match); any other use of the dollar sign is literal. -/
def expandRepl (before matched after : List Char) : List Char → List Char
  | [] => []
  | c :: t =>
    if c = '$' then
      match t with
      | [] => ['$']
      | c2 :: t2 =>
        if c2 = '$' then '$' :: expandRepl before matched after t2
        else if c2 = '&' then matched ++ expandRepl before matched after t2
        else if c2 = '`' then before ++ expandRepl before matched after t2
        else if c2 = '\'' then after ++ expandRepl before matched after t2
        else '$' :: c2 :: expandRepl before matched after t2
    else c :: expandRepl before matched after t

/-- One global-replace pass, with fuel for termination (fuel at least the
length of `todo` suffices).  `done` is the already-scanned part of the whole
subject, needed by the dollar-backquote substitution pattern. -/
def replaceGo (pat repl : List Char) : Nat → List Char → List Char → List Char
  | 0, _, todo => todo
  | fuel + 1, done, todo =>
    match splitFirst pat todo with
    | none => todo
    | some (pre, post) =>
      pre ++ expandRepl (done ++ pre) pat post repl ++
        replaceGo pat repl fuel (done ++ pre ++ pat) post

/-- JavaScript `s.replace(re, repl)` where `re` is a global regex matching the
literal string `pat` (the shape produced by `renderWithRow`, see `lexRegex`). -/
def jsReplaceAll (s pat repl : List Char) : List Char :=
  if pat.isEmpty then s else replaceGo pat repl s.length [] s

/-- `xs.join(sep)`: interleave `sep` between the chunks. -/
def joinWith (sep : List Char) : List (List Char) → List Char
  | [] => []
  | [x] => x
  | x :: y :: t => x ++ sep ++ joinWith sep (y :: t)

/-- The placeholder text for key `k`: double-open-paren, `k`, double-close-paren. -/
def wrapPH (k : List Char) : List Char := '(' :: '(' :: (k ++ [')', ')'])

/-- The character class escaped by `renderWithRow` before building its regex:
hyphen, slash, backslash, caret, dollar, star, plus, question mark, dot,
parentheses, pipe, square brackets, curly brackets. -/
def regexMetaChars : List Char :=
  ['-', '/', '\\', '^', '$', '*', '+', '?', '.', '(', ')', '|', '[', ']',
   Char.ofNat 123, Char.ofNat 125]

/-- `key.replace(<metachar class>, backslash-dollar-ampersand)`: prefix every
regex metacharacter with a backslash. -/
def escRegex : List Char → List Char
  | [] => []
  | c :: t => (if regexMetaChars.contains c then ['\\', c] else [c]) ++ escRegex t

/-- The regex source string `renderWithRow` builds for a header `h`:
escaped double-open-paren, the escaped trimmed header, escaped double-close-paren. -/
def regexSourceOf (h : List Char) : List Char :=
  ['\\', '(', '\\', '('] ++ escRegex (jsTrim h) ++ ['\\', ')', '\\', ')']

/-- A compiled regex token: a literal character, or a character carrying
metacharacter semantics. -/
inductive RTok where
  | lit (c : Char)
  | meta (c : Char)
deriving DecidableEq

/-- Compile a regex source string into tokens: a backslash followed by a
punctuation metacharacter is that literal character; an unescaped
metacharacter keeps its regex semantics; any other character is literal.
(Escapes outside the punctuation class, e.g. backslash-d, have class
semantics in JavaScript and are conservatively rejected; `regexSourceOf`
never produces them.) -/
def lexRegex : List Char → Option (List RTok)
  | [] => some []
  | c :: t =>
    if c = '\\' then
      match t with
      | [] => none
      | c2 :: t2 =>
        if regexMetaChars.contains c2 then (lexRegex t2).map (RTok.lit c2 :: ·)
        else none
    else (lexRegex t).map ((if regexMetaChars.contains c then RTok.meta c else RTok.lit c) :: ·)

/-- `true` when `s` contains neither an opening nor a closing parenthesis. -/
def parenFree (s : List Char) : Bool := s.all (fun c => c != '(' && c != ')')

/-- `true` when `s` contains no dollar sign (so it is inert as a
JavaScript replacement string). -/
def dollarFree (s : List Char) : Bool := s.all (fun c => c != '$')

/-- `signature.replace(<tag regex>, '')`: global removal of maximal
`<` + one-or-more non-`>` + `>` runs, scanning left-to-right (fuel-based). -/
def stripTagsGo : Nat → List Char → List Char
  | 0, s => s
  | _ + 1, [] => []
  | fuel + 1, c :: t =>
    if c = '<' then
      let run := t.takeWhile (fun d => d != '>')
      let rest := t.drop run.length
      if run.isEmpty || rest.isEmpty then c :: stripTagsGo fuel t
      else stripTagsGo fuel (rest.drop 1)
    else c :: stripTagsGo fuel t

/-- Strip markup tags from a signature, as `renderWithRow` does. -/
def stripTags (s : List Char) : List Char := stripTagsGo s.length s

/-- A spreadsheet cell: `none` models a JavaScript hole
(`undefined`/`null`), `some s` a present value with display string `s`. -/
abbrev Cell := Option (List Char)

/-- `row[i] != null ? String(row[i]) : ''` — the display string of cell `i`,
empty when the row is too short or the cell is null. -/
def cellStr (row : List Cell) (i : Nat) : List Char :=
  match row.getD i none with
  | some v => v
  | none => []

/-- Header at index `k` (rows of headers are never read out of range). -/
def headerAt (headers : List (List Char)) (k : Nat) : List Char := headers.getD k []

/-- The first `k` substitution passes of `renderWithRow`: pass `i` replaces
every occurrence of the placeholder of the trimmed header `i` by the display
string of row cell `i`. -/
def renderPrefix (content : List Char) (headers : List (List Char)) (row : List Cell) :
    Nat → List Char
  | 0 => content
  | k + 1 =>
    jsReplaceAll (renderPrefix content headers row k)
      (wrapPH (jsTrim (headerAt headers k))) (cellStr row k)

/-- `renderWithRow(content, headers, row, signature)` of the source: run all
substitution passes in header order, then append the tag-stripped signature
after a blank line when the signature is non-empty. -/
def renderWithRow (content : List Char) (headers : List (List Char)) (row : List Cell)
    (signature : List Char) : List Char :=
  let out := renderPrefix content headers row headers.length
  if signature.isEmpty then out else out ++ '\n' :: '\n' :: stripTags signature

/-! ## Credential normalization (`normalizeCredentials`) -/

/-- A raw credential object as found in a provider credential JSON document:
each field may be absent (`none`). -/
structure RawCred where
  client_id : Cell
  client_secret : Cell
  redirect_uris : Option (List (List Char))
deriving DecidableEq

/-- A raw credential document.  `web` and `installed` model the
correspondingly named sub-objects when present; `flat` models the document's
own top-level fields (the "flat" accepted shape). -/
structure RawDoc where
  web : Option RawCred
  installed : Option RawCred
  flat : RawCred
deriving DecidableEq

/-- The three throw sites of `normalizeCredentials`; the specification calls
all of them `InvalidCredentials`. -/
inductive CredError where
  | missingWebFields
  | invalidFormat
  | missingFields
deriving DecidableEq

/-- The value returned by `normalizeCredentials`. -/
structure NormalizedCredentials where
  client_id : List Char
  client_secret : List Char
  redirect_uri : Cell
  fixed : Bool
  host : Cell
deriving DecidableEq

/-- JavaScript truthiness of an optional string field: absent, null and the
empty string are falsy. -/
def truthyS : Cell → Bool
  | none => false
  | some s => !s.isEmpty

/-- `u.startsWith('http://localhost')`. -/
def isLocalhostUri (u : List Char) : Bool := (sl "http://localhost").isPrefixOf u

/-- The `web`-shaped branch of `normalizeCredentials`: require truthy
`client_id`/`client_secret`, then pick the first loopback redirect URI when
one is declared (`fixed = true`), else leave the redirect unresolved. -/
def normalizeWebCreds (web : RawCred) : Except CredError NormalizedCredentials :=
  if !truthyS web.client_id || !truthyS web.client_secret then
    Except.error CredError.missingWebFields
  else
    let cid := web.client_id.getD []
    let csec := web.client_secret.getD []
    match web.redirect_uris with
    | some uris =>
      match uris.find? isLocalhostUri with
      | some exact => Except.ok ⟨cid, csec, some exact, true, none⟩
      | none => Except.ok ⟨cid, csec, none, false, none⟩
    | none => Except.ok ⟨cid, csec, none, false, none⟩

/-- The `installed`/flat branch of `normalizeCredentials`: require truthy
`client_id`/`client_secret` and record the preferred loopback host. -/
def normalizeFlatCreds (creds : RawCred) : Except CredError NormalizedCredentials :=
  if !truthyS creds.client_id || !truthyS creds.client_secret then
    Except.error CredError.missingFields
  else
    let hasLocalhost :=
      match creds.redirect_uris with
      | some uris => uris.any isLocalhostUri
      | none => false
    Except.ok ⟨creds.client_id.getD [], creds.client_secret.getD [], none, false,
      some (if hasLocalhost then sl "localhost" else sl "127.0.0.1")⟩

/-- `normalizeCredentials(raw)`.  `none` models a null/undefined argument. -/
def normalizeCredentials (raw : Option RawDoc) : Except CredError NormalizedCredentials :=
  match raw with
  | none => Except.error CredError.invalidFormat
  | some doc =>
    match doc.web with
    | some web => normalizeWebCreds web
    | none => normalizeFlatCreds (doc.installed.getD doc.flat)

/-! ## Raw email construction (`buildRawEmail`) -/

/-- Carriage return + line feed, the MIME line separator. -/
def CRLF : List Char := ['\r', '\n']

/-- The attachment marker whose occurrences claim C5 counts. -/
def cdMarker : List Char := sl "Content-Disposition: attachment"

/-- The MIME boundary marker of claim C5's no-attachment half. -/
def bMarker : List Char := sl "boundary="

/-- The base64 alphabet, in index order. -/
def base64Chars : List Char :=
  sl "ABCDEFGHIJKLMNOPQRSTUVWXYZabcdefghijklmnopqrstuvwxyz0123456789+/"

/-- The base64 digit of a sextet value. -/
def b64char (n : Nat) : Char := base64Chars.getD n 'A'

/-- `Buffer.toString('base64')`: standard base64 with padding, bytes taken
modulo 256. -/
def b64encode : List Nat → List Char
  | [] => []
  | [a] =>
    let a := a % 256
    [b64char (a / 4), b64char (a % 4 * 16), '=', '=']
  | [a, b] =>
    let a := a % 256
    let b := b % 256
    [b64char (a / 4), b64char (a % 4 * 16 + b / 16), b64char (b % 16 * 4), '=']
  | a :: b :: c :: t =>
    let a := a % 256
    let b := b % 256
    let c := c % 256
    b64char (a / 4) :: b64char (a % 4 * 16 + b / 16) ::
      b64char (b % 16 * 4 + c / 64) :: b64char (c % 64) :: b64encode t

/-- `b64.replace(/.\x7b1,76\x7d/g, m => m + CRLF)`: append CRLF after every
run of up-to-76 characters (fuel-based; no-op on the empty string). -/
def wrap76Go : Nat → List Char → List Char
  | 0, s => s
  | _ + 1, [] => []
  | fuel + 1, s => s.take 76 ++ CRLF ++ wrap76Go fuel (s.drop 76)

/-- Wrap base64 output at 76 characters per line. -/
def wrap76 (s : List Char) : List Char := wrap76Go s.length s

/-- `path.basename(p)`: the final path component (both separators accepted,
as on win32). -/
def basename (p : List Char) : List Char :=
  (p.reverse.takeWhile (fun c => c != '/' && c != '\\')).reverse

/-- Environment of `buildRawEmail`: filesystem reads (`none` models a read
that throws), MIME type lookup by filename (`none` models an unknown type)
and the random suffix drawn for the boundary token. -/
structure MailEnv where
  fsRead : List Char → Option (List Nat)
  mimeLookup : List Char → Option (List Char)
  boundaryRand : List Char

/-- `mime.lookup(filename) || 'application/octet-stream'`. -/
def ctypeFor (menv : MailEnv) (filename : List Char) : List Char :=
  (menv.mimeLookup filename).getD (sl "application/octet-stream")

/-- The MIME part built for one attachment path: empty when the file read
fails (the catch logs a warning and adds nothing at all). -/
def attachmentPart (menv : MailEnv) (boundary p : List Char) : List Char :=
  match menv.fsRead p with
  | none => []
  | some data =>
    let filename := basename p
    let ctype := ctypeFor menv filename
    sl "--" ++ boundary ++ CRLF ++
    sl "Content-Type: " ++ ctype ++ sl "; name=\"" ++ filename ++ sl "\"" ++ CRLF ++
    sl "Content-Transfer-Encoding: base64" ++ CRLF ++
    sl "Content-Disposition: attachment; filename=\"" ++ filename ++ sl "\"" ++ CRLF ++ CRLF ++
    wrap76 (b64encode data) ++ CRLF

/-- The concatenation of the parts of all attachments, in order. -/
def attachmentParts (menv : MailEnv) (boundary : List Char) : List (List Char) → List Char
  | [] => []
  | p :: t => attachmentPart menv boundary p ++ attachmentParts menv boundary t

/-- The `From`/`To`/`Subject`/`MIME-Version` header lines (the `From` header
is emitted only for a truthy `from`). -/
def baseHeaders (from_ : Cell) (toAddr subject : List Char) : List (List Char) :=
  (match from_ with
   | some f => if f.isEmpty then [] else [sl "From: " ++ f]
   | none => []) ++
  [sl "To: " ++ toAddr, sl "Subject: " ++ subject, sl "MIME-Version: 1.0"]

/-- `buildRawEmail` applied at a message record: a single
text/plain message without attachments, a multipart/mixed message with a
random boundary otherwise. -/
def buildRawEmail (menv : MailEnv) (from_ : Cell) (toAddr subject text : List Char)
    (attachments : List (List Char)) : List Char :=
  let boundary := sl "mixed_" ++ menv.boundaryRand
  if attachments.isEmpty then
    joinWith CRLF (baseHeaders from_ toAddr subject ++
      [sl "Content-Type: text/plain; charset=\"UTF-8\"",
       sl "Content-Transfer-Encoding: 7bit"]) ++ CRLF ++ CRLF ++ text
  else
    joinWith CRLF (baseHeaders from_ toAddr subject ++
      [sl "Content-Type: multipart/mixed; boundary=\"" ++ boundary ++ sl "\""]) ++
    CRLF ++ CRLF ++
    (sl "--" ++ boundary ++ CRLF ++
     sl "Content-Type: text/plain; charset=\"UTF-8\"" ++ CRLF ++
     sl "Content-Transfer-Encoding: 7bit" ++ CRLF ++ CRLF ++
     text ++ CRLF ++
     attachmentParts menv boundary attachments ++
     sl "--" ++ boundary ++ sl "--" ++ CRLF)

/-! ## Status column (`ensureStatusColumn`) -/

/-- `String(h).trim().toLowerCase() === 'status'`. -/
def isStatusHeader (h : List Char) : Bool :=
  (jsTrim h).map Char.toLower == sl "status"

/-- `ensureStatusColumn`: find a status header case-insensitively after
trimming; otherwise append `'Status'` and write the header row back.
`writeOk` models the outcome of that remote write: on failure the function
returns the sentinel `-1` — but the header list has already been mutated.
Returns the index and the (possibly mutated) header list. -/
def ensureStatusColumn (writeOk : Bool) (headers : List (List Char)) :
    Int × List (List Char) :=
  match headers.findIdx? isStatusHeader with
  | some i => ((i : Int), headers)
  | none =>
    let headers2 := headers ++ [sl "Status"]
    if writeOk then (((headers2.length - 1 : Nat) : Int), headers2) else (-1, headers2)

/-! ## Campaign runner (`executeCampaignRun`) -/

/-- `(delaySeconds || 5)`: absent, null and `0` fall back on 5 seconds. -/
def effectiveDelaySeconds (d : Option Nat) : Nat :=
  match d with
  | none => 5
  | some n => if n = 0 then 5 else n

/-- The parameters of a campaign run that the runner reads. -/
structure CampaignParams where
  subject : List Char
  content : List Char
  from_ : Cell
  attachmentsPaths : List (List Char)
  delaySeconds : Option Nat
  useSignature : Bool

/-- Environment of a campaign run: per-row provider send outcome, the random
draw behind each row's jitter (`Math.floor(Math.random() * 2000)` is an
integer in `[0, 2000)`, modelled as the draw reduced modulo 2000), the
account signature, and the per-row outcome of the status write-back. -/
structure RunEnv where
  sendFails : Nat → Bool
  jitterDraw : Nat → Nat
  signature : List Char
  statusWriteOk : Nat → Bool

/-- Observable events of a campaign run, in order: reaching the provider
send call for a row, its success, the status write-back attempt, and the
inter-send sleep with its duration in milliseconds. -/
inductive RunEvent where
  | attempt (i : Nat) (toAddr : List Char)
  | sent (i : Nat)
  | statusWrite (i : Nat) (ok : Bool)
  | slept (ms : Nat)
deriving DecidableEq

/-- Result of `executeCampaignRun`: the two throw sites before the loop, an
abort when a row's send throws (carrying the events so far and the failing
row index), or completion with the full event trace. -/
inductive RunResult where
  | noData
  | noEmailColumn
  | aborted (events : List RunEvent) (failedRow : Nat)
  | completed (events : List RunEvent)
deriving DecidableEq

/-- The send loop of `executeCampaignRun` from row index `i` on.  Rows with a
falsy recipient cell are skipped.  The send call is NOT wrapped in a
try/catch: a failing send ends the loop immediately (second component
`some i`).  On success the status write-back (whose own failure is swallowed,
and which appends a Status header via `ensureStatusColumn` on first use) and
the paced sleep follow. -/
def sendLoop (menv : MailEnv) (env : RunEnv) (p : CampaignParams) (emailIdx : Nat)
    (sig : List Char) : List (List Char) → Nat → List (List Cell) →
    List RunEvent × Option Nat
  | _, _, [] => ([], none)
  | headers, i, row :: rest =>
    let toAddr := cellStr row emailIdx
    if toAddr.isEmpty then sendLoop menv env p emailIdx sig headers (i + 1) rest
    else
      let text := renderWithRow p.content headers row sig
      let _payload := buildRawEmail menv p.from_ toAddr p.subject text p.attachmentsPaths
      if env.sendFails i then ([RunEvent.attempt i toAddr], some i)
      else
        let headers2 := (ensureStatusColumn (env.statusWriteOk i) headers).2
        let pause := effectiveDelaySeconds p.delaySeconds * 1000 + env.jitterDraw i % 2000
        let next := sendLoop menv env p emailIdx sig headers2 (i + 1) rest
        (RunEvent.attempt i toAddr :: RunEvent.sent i ::
          RunEvent.statusWrite i (env.statusWriteOk i) :: RunEvent.slept pause :: next.1,
         next.2)

/-- `String(h)` for a header cell (`String(undefined)` is `"undefined"`). -/
def headerCellStr (c : Cell) : List Char :=
  match c with
  | some s => s
  | none => sl "undefined"

/-- `findEmailColumnIndex`: index of the first header whose lower-cased text
contains `'email'`, `-1` when none does. -/
def findEmailColumnIndex (headers : List (List Char)) : Int :=
  match (headers.map (fun h => h.map Char.toLower)).findIdx?
      (fun h => containsSub h (sl "email")) with
  | some i => (i : Int)
  | none => -1

/-- `executeCampaignRun(params)` over a sheet snapshot `values` (header row
followed by data rows). -/
def executeCampaignRun (menv : MailEnv) (env : RunEnv) (p : CampaignParams)
    (values : List (List Cell)) : RunResult :=
  match values with
  | [] => RunResult.noData
  | hrow :: rows =>
    let headers := hrow.map headerCellStr
    let eIdx := findEmailColumnIndex headers
    if eIdx < 0 then RunResult.noEmailColumn
    else
      let sig := if p.useSignature then env.signature else []
      match sendLoop menv env p eIdx.toNat sig headers 0 rows with
      | (evs, none) => RunResult.completed evs
      | (evs, some j) => RunResult.aborted evs j

/-- Number of `attempt` events for row `k` in a trace. -/
def attemptCount (evs : List RunEvent) (k : Nat) : Nat :=
  evs.countP (fun e =>
    match e with
    | RunEvent.attempt i _ => i == k
    | _ => false)

/-- The recipient cell a campaign run would use for data row `j` of a sheet
snapshot (empty when the snapshot has no email column or no such row). -/
def campaignRecipient (values : List (List Cell)) (j : Nat) : List Char :=
  match values with
  | [] => []
  | hrow :: rows =>
    let eIdx := findEmailColumnIndex (hrow.map headerCellStr)
    if eIdx < 0 then [] else cellStr (rows.getD j []) eIdx.toNat

/-! ## Scheduler (`scheduleOneTimeCampaign`, `cancelScheduledJob`) -/

/-- The scheduler's observable state: `jobs` is the in-memory registry (ids
whose entry is still in the map), `started` the set of job ids whose runner
invocation has begun. -/
structure SchedState where
  jobs : List (List Char)
  started : List (List Char)
deriving DecidableEq

/-- `cancelScheduledJob(id)`: if the id is in the registry, clear its timer
and delete it, returning success; otherwise return failure. -/
def cancelScheduledJob (s : SchedState) (id : List Char) : Bool × SchedState :=
  if id ∈ s.jobs then (true, ⟨s.jobs.filter (fun x => x != id), s.started⟩)
  else (false, s)

/-- `scheduleOneTimeCampaign`: register a fresh job id with a pending timer. -/
def scheduleJob (s : SchedState) (id : List Char) : SchedState :=
  ⟨id :: s.jobs, s.started⟩

/-- Events the scheduler can observe after a point in time: a timer firing
(which invokes the runner only when the job is still registered and has not
fired before — `clearTimeout` plus map deletion are atomic in `cancel`), the
`finally` deletion after a fired run completes (success or failure), a
cancellation, or a new scheduling. -/
inductive SchedOp where
  | fireStart (id : List Char)
  | fireEnd (id : List Char)
  | cancel (id : List Char)
  | schedule (id : List Char)
deriving DecidableEq

/-- Transition of the scheduler state under one event. -/
def schedStep (s : SchedState) : SchedOp → SchedState
  | SchedOp.fireStart id =>
    if id ∈ s.jobs ∧ id ∉ s.started then ⟨s.jobs, id :: s.started⟩ else s
  | SchedOp.fireEnd id =>
    if id ∈ s.started then ⟨s.jobs.filter (fun x => x != id), s.started⟩ else s
  | SchedOp.cancel id => (cancelScheduledJob s id).2
  | SchedOp.schedule id => scheduleJob s id

/-- Run a sequence of scheduler events. -/
def schedRun (s : SchedState) (ops : List SchedOp) : SchedState :=
  ops.foldl schedStep s

/-! ## Concrete instances used by the witness theorems -/

/-- A run environment in which exactly the second send (index 1) fails. -/
def envC1 : RunEnv := ⟨(· == 1), fun _ => 0, [], fun _ => true⟩

/-- A mail environment with no readable files and no MIME table. -/
def menvC1 : MailEnv := ⟨fun _ => none, fun _ => none, []⟩

/-- Campaign parameters with an explicit five-second delay. -/
def pC1 : CampaignParams := ⟨sl "s", sl "c", none, [], some 5, false⟩

/-- A sheet snapshot: a header row and three data rows with recipients. -/
def valuesC1 : List (List Cell) :=
  [[some (sl "Email")], [some (sl "a@x")], [some (sl "b@x")], [some (sl "c@x")]]

/-- A run environment in which every send succeeds. -/
def envAllOk : RunEnv := ⟨fun _ => false, fun _ => 0, [], fun _ => true⟩

/-- Campaign parameters with no `delaySeconds` supplied. -/
def pC1none : CampaignParams := ⟨sl "s", sl "c", none, [], none, false⟩

/-- A mail environment in which every file read succeeds with three bytes. -/
def menvC5 : MailEnv := ⟨fun _ => some [0, 1, 2], fun _ => none, sl "r"⟩

/-! ## Basic facts about substring search -/

/-- `containsSub` agrees with the existence of an occurrence decomposition. -/
theorem containsSub_iff (s pat : List Char) :
    containsSub s pat = true ↔ ∃ x y, s = x ++ pat ++ y := by
  induction s with
  | nil =>
    simp only [containsSub, List.isPrefixOf_iff_prefix]
    constructor
    · rintro ⟨t, ht⟩
      have h1 : pat = [] := (List.append_eq_nil.mp ht).1
      exact ⟨[], [], by simp [h1]⟩
    · rintro ⟨x, y, hxy⟩
      have : pat = [] := by
        rcases List.append_eq_nil.mp hxy.symm with ⟨h1, h2⟩
        exact (List.append_eq_nil.mp h1).2
      exact ⟨[], by simp [this]⟩
  | cons c t ih =>
    simp only [containsSub, Bool.or_eq_true, List.isPrefixOf_iff_prefix, ih]
    constructor
    · rintro (⟨r, hr⟩ | ⟨x, y, hxy⟩)
      · exact ⟨[], r, by simp [hr]⟩
      · exact ⟨c :: x, y, by simp [hxy]⟩
    · rintro ⟨x, y, hxy⟩
      cases x with
      | nil => exact Or.inl ⟨y, by simpa using hxy.symm⟩
      | cons c2 x2 =>
        right
        refine ⟨x2, y, ?_⟩
        have := hxy
        simp only [List.cons_append] at this
        exact (List.cons.injEq .. ▸ this).2

/-- An explicit occurrence makes `containsSub` true. -/
theorem containsSub_of_eq {s pat x y : List Char} (h : s = x ++ pat ++ y) :
    containsSub s pat = true :=
  (containsSub_iff s pat).mpr ⟨x, y, h⟩

/-- Occurrences survive extension on the right. -/
theorem containsSub_append_right {a pat : List Char} (b : List Char)
    (h : containsSub a pat = true) : containsSub (a ++ b) pat = true := by
  obtain ⟨x, y, hxy⟩ := (containsSub_iff a pat).mp h
  exact @containsSub_of_eq (a ++ b) pat x (y ++ b) (by simp [hxy])

/-- Occurrences survive extension on the left. -/
theorem containsSub_append_left {b pat : List Char} (a : List Char)
    (h : containsSub b pat = true) : containsSub (a ++ b) pat = true := by
  obtain ⟨x, y, hxy⟩ := (containsSub_iff b pat).mp h
  exact @containsSub_of_eq (a ++ b) pat (a ++ x) y (by simp [hxy])

/-- A nonempty pattern does not occur in the empty string. -/
theorem containsSub_nil {pat : List Char} (h : pat ≠ []) :
    containsSub [] pat = false := by
  cases pat with
  | nil => exact absurd rfl h
  | cons c t => rfl

/-- `countOccur` is zero exactly when there is no occurrence. -/
theorem countOccur_eq_zero_iff {pat : List Char} (s : List Char) (hpat : pat ≠ []) :
    countOccur s pat = 0 ↔ containsSub s pat = false := by
  induction s with
  | nil => simp [countOccur, containsSub_nil hpat]
  | cons c t ih =>
    by_cases h : pat.isPrefixOf (c :: t)
    · simp [countOccur, containsSub, h]
    · simp [countOccur, containsSub, h, ih]

/-- A successful `splitFirst` is an occurrence decomposition. -/
theorem splitFirst_eq_append {pat s pre post : List Char}
    (h : splitFirst pat s = some (pre, post)) : s = pre ++ pat ++ post := by
  induction s generalizing pre post with
  | nil => simp [splitFirst] at h
  | cons c t ih =>
    by_cases hp : pat.isPrefixOf (c :: t)
    · rw [splitFirst, if_pos hp] at h
      obtain ⟨r, hr⟩ := List.isPrefixOf_iff_prefix.mp hp
      injection h with h1
      obtain ⟨hpre, hpost⟩ := Prod.mk.injEq .. ▸ h1
      subst hpre
      have hdrop : (c :: t).drop pat.length = r := by
        rw [← hr, List.drop_left]
      rw [← hpost, hdrop]
      simpa using hr.symm
    · rw [splitFirst, if_neg hp] at h
      cases hsp : splitFirst pat t with
      | none => rw [hsp] at h; simp at h
      | some pp =>
        obtain ⟨pre2, post2⟩ := pp
        rw [hsp] at h
        injection h with h1
        obtain ⟨hpre, hpost⟩ := Prod.mk.injEq .. ▸ h1
        subst hpost
        rw [← hpre]
        simpa using ih hsp

/-- When `splitFirst` fails there is no occurrence (nonempty pattern). -/
theorem splitFirst_none {pat s : List Char} (hpat : pat ≠ [])
    (h : splitFirst pat s = none) : containsSub s pat = false := by
  induction s with
  | nil => exact containsSub_nil hpat
  | cons c t ih =>
    by_cases hp : pat.isPrefixOf (c :: t)
    · rw [splitFirst, if_pos hp] at h; simp at h
    · rw [splitFirst, if_neg hp] at h
      cases hsp : splitFirst pat t with
      | none => simp [containsSub, hp, ih hsp]
      | some pp => rw [hsp] at h; simp at h

/-- The part before the leftmost occurrence is occurrence-free. -/
theorem splitFirst_pre_clean {pat s pre post : List Char} (hpat : pat ≠ [])
    (h : splitFirst pat s = some (pre, post)) : containsSub pre pat = false := by
  induction s generalizing pre post with
  | nil => simp [splitFirst] at h
  | cons c t ih =>
    by_cases hp : pat.isPrefixOf (c :: t)
    · rw [splitFirst, if_pos hp] at h
      injection h with h1
      obtain ⟨hpre, _⟩ := Prod.mk.injEq .. ▸ h1
      rw [← hpre]
      exact containsSub_nil hpat
    · rw [splitFirst, if_neg hp] at h
      cases hsp : splitFirst pat t with
      | none => rw [hsp] at h; simp at h
      | some pp =>
        obtain ⟨pre2, post2⟩ := pp
        rw [hsp] at h
        injection h with h1
        obtain ⟨hpre, _⟩ := Prod.mk.injEq .. ▸ h1
        rw [← hpre]
        have hclean := ih hsp
        have hplt : pre2 <+: t :=
          ⟨pat ++ post2, by simpa [List.append_assoc] using (splitFirst_eq_append hsp).symm⟩
        simp only [containsSub, Bool.or_eq_false_iff]
        refine ⟨?_, hclean⟩
        cases hpp : pat.isPrefixOf (c :: pre2) with
        | false => rfl
        | true =>
          exfalso
          have h1 : pat <+: c :: pre2 := List.isPrefixOf_iff_prefix.mp hpp
          have h2 : c :: pre2 <+: c :: t := by
            obtain ⟨r, hr⟩ := hplt
            exact ⟨r, by simp [hr]⟩
          exact hp (List.isPrefixOf_iff_prefix.mpr (h1.trans h2))

/-- The tail returned by `splitFirst` is strictly shorter (for a nonempty
pattern). -/
theorem splitFirst_post_length {pat s pre post : List Char} (hpat : pat ≠ [])
    (h : splitFirst pat s = some (pre, post)) : post.length < s.length := by
  have hs := splitFirst_eq_append h
  have hlen : s.length = pre.length + pat.length + post.length := by
    rw [hs]; simp only [List.length_append]
  have : 0 < pat.length := List.length_pos.mpr hpat
  omega

/-! ## Global replacement: characterization and identity -/

/-- `joinWith` unfolds on a cons with a nonempty tail. -/
theorem joinWith_cons (sep x : List Char) {l : List (List Char)} (hl : l ≠ []) :
    joinWith sep (x :: l) = x ++ sep ++ joinWith sep l := by
  cases l with
  | nil => exact absurd rfl hl
  | cons y t => rfl

/-- A dollar-free replacement string expands to itself. -/
theorem expandRepl_dollarFree {v : List Char} (b m a : List Char)
    (hv : dollarFree v = true) : expandRepl b m a v = v := by
  induction v with
  | nil => rfl
  | cons c t ih =>
    simp only [dollarFree, List.all_cons, Bool.and_eq_true, bne_iff_ne] at hv
    have h1 : expandRepl b m a (c :: t) = c :: expandRepl b m a t := by
      rw [expandRepl.eq_def]; exact if_neg hv.1
    rw [h1]
    exact congrArg (c :: ·) (ih hv.2)

/-- Characterization of one global-replace pass with a dollar-free
replacement: the subject splits into occurrence-free chunks joined by the
pattern, and the output is the same chunks joined by the replacement. -/
theorem replaceGo_decomp {pat v : List Char} (hpat : pat ≠ [])
    (hv : dollarFree v = true) :
    ∀ fuel done todo, todo.length ≤ fuel →
    ∃ chunks, chunks ≠ [] ∧
      todo = joinWith pat chunks ∧
      replaceGo pat v fuel done todo = joinWith v chunks ∧
      ∀ c ∈ chunks, containsSub c pat = false := by
  intro fuel
  induction fuel with
  | zero =>
    intro done todo h
    have htodo : todo = [] := List.eq_nil_of_length_eq_zero (Nat.le_zero.mp h)
    subst htodo
    exact ⟨[[]], by simp, rfl, rfl, by simpa using containsSub_nil hpat⟩
  | succ fuel ih =>
    intro done todo h
    cases hsp : splitFirst pat todo with
    | none =>
      refine ⟨[todo], by simp, rfl, ?_, by simpa using splitFirst_none hpat hsp⟩
      rw [replaceGo, hsp]
      rfl
    | some pp =>
      obtain ⟨pre, post⟩ := pp
      have heq := splitFirst_eq_append hsp
      have hlen : post.length ≤ fuel := by
        have := splitFirst_post_length hpat hsp
        omega
      obtain ⟨chunks, hne, h1, h2, h3⟩ := ih (done ++ pre ++ pat) post hlen
      refine ⟨pre :: chunks, by simp, ?_, ?_, ?_⟩
      · rw [joinWith_cons _ _ hne, ← h1]
        exact heq
      · rw [replaceGo, hsp, joinWith_cons _ _ hne]
        show pre ++ expandRepl (done ++ pre) pat post v ++
            replaceGo pat v fuel (done ++ pre ++ pat) post = pre ++ v ++ joinWith v chunks
        rw [expandRepl_dollarFree (done ++ pre) pat post hv, h2]
      · intro c hc
        rcases List.mem_cons.mp hc with hc | hc
        · subst hc; exact splitFirst_pre_clean hpat hsp
        · exact h3 c hc

/-- `jsReplaceAll` version of `replaceGo_decomp`. -/
theorem jsReplaceAll_decomp {pat v : List Char} (s : List Char) (hpat : pat ≠ [])
    (hv : dollarFree v = true) :
    ∃ chunks, chunks ≠ [] ∧
      s = joinWith pat chunks ∧
      jsReplaceAll s pat v = joinWith v chunks ∧
      ∀ c ∈ chunks, containsSub c pat = false := by
  have hne : pat.isEmpty = false := by cases pat with
    | nil => exact absurd rfl hpat
    | cons c t => rfl
  rw [jsReplaceAll, hne]
  exact replaceGo_decomp hpat hv s.length [] s (Nat.le_refl _)

/-- A string without an occurrence of the pattern is left unchanged. -/
theorem jsReplaceAll_of_not_contains {s pat v : List Char}
    (h : containsSub s pat = false) : jsReplaceAll s pat v = s := by
  cases hne : pat.isEmpty with
  | true => rw [jsReplaceAll, hne]; rfl
  | false =>
    rw [jsReplaceAll, hne]
    show replaceGo pat v s.length [] s = s
    cases hl : s.length with
    | zero => rfl
    | succ n =>
      rw [replaceGo]
      cases hsp : splitFirst pat s with
      | none => rfl
      | some pp =>
        exfalso
        obtain ⟨pre, post⟩ := pp
        have := containsSub_of_eq (splitFirst_eq_append hsp)
        rw [h] at this
        exact Bool.false_ne_true this

/-! ## Placeholders of distinct paren-free keys cannot overlap -/

/-- A paren-free string has no opening parenthesis. -/
theorem parenFree_no_open {s : List Char} (h : parenFree s = true) : '(' ∉ s := by
  intro hm
  have := List.all_eq_true.mp h _ hm
  simp at this

/-- A paren-free string has no closing parenthesis. -/
theorem parenFree_no_close {s : List Char} (h : parenFree s = true) : ')' ∉ s := by
  intro hm
  have := List.all_eq_true.mp h _ hm
  simp at this

/-- Cancellation through the closing double parenthesis: two paren-free keys
followed by the closing marker and arbitrary tails agree only componentwise. -/
theorem parenFree_close_cancel :
    ∀ p k y z : List Char, parenFree p = true → parenFree k = true →
    p ++ ')' :: ')' :: y = k ++ ')' :: ')' :: z → p = k ∧ y = z := by
  intro p
  induction p with
  | nil =>
    intro k y z _ hk h
    cases k with
    | nil =>
      refine ⟨rfl, ?_⟩
      simpa using h
    | cons c kt =>
      exfalso
      simp only [List.nil_append, List.cons_append] at h
      have hc : ')' = c := (List.cons.injEq .. ▸ h).1
      have hk2 : c ≠ ')' := by
        simp only [parenFree, List.all_cons, Bool.and_eq_true, bne_iff_ne] at hk
        exact hk.1.2
      exact hk2 hc.symm
  | cons c pt ih =>
    intro k y z hp hk h
    cases k with
    | nil =>
      exfalso
      simp only [List.cons_append, List.nil_append] at h
      have hc : c = ')' := (List.cons.injEq .. ▸ h).1
      have hp2 : c ≠ ')' := by
        simp only [parenFree, List.all_cons, Bool.and_eq_true, bne_iff_ne] at hp
        exact hp.1.2
      exact hp2 hc
    | cons c2 kt =>
      simp only [List.cons_append] at h
      have h1 := (List.cons.injEq .. ▸ h).1
      have h2 := (List.cons.injEq .. ▸ h).2
      have hp' : parenFree pt = true := by
        simp only [parenFree, List.all_cons, Bool.and_eq_true] at hp
        exact hp.2
      have hk' : parenFree kt = true := by
        simp only [parenFree, List.all_cons, Bool.and_eq_true] at hk
        exact hk.2
      obtain ⟨hpk, hyz⟩ := ih kt y z hp' hk' h2
      exact ⟨by rw [h1, hpk], hyz⟩

/-- The placeholder of a paren-free key `p` never occurs inside the
placeholder of a different paren-free key `k`. -/
theorem wrap_not_infix {p k : List Char} (hp : parenFree p = true)
    (hk : parenFree k = true) (hne : p ≠ k) :
    ∀ x y, wrapPH k ≠ x ++ wrapPH p ++ y := by
  intro x y h
  cases x with
  | nil =>
    simp only [wrapPH, List.nil_append, List.cons_append, List.cons.injEq] at h
    obtain ⟨-, -, h3⟩ := h
    have h4 : k ++ ')' :: ')' :: ([] : List Char) = p ++ ')' :: ')' :: y := by
      simpa using h3
    exact hne ((parenFree_close_cancel k p [] y hk hp h4).1).symm
  | cons c1 x1 =>
    cases x1 with
    | nil =>
      simp only [wrapPH, List.cons_append, List.nil_append, List.cons.injEq] at h
      obtain ⟨-, -, h3⟩ := h
      -- h3 : k ++ [')', ')'] = '(' :: ((p ++ [')', ')']) ++ y)
      cases k with
      | nil => simp at h3
      | cons kc kt =>
        have : kc = '(' := by
          simpa using (List.cons.injEq .. ▸ h3).1
        exact parenFree_no_open hk (this ▸ List.mem_cons_self kc kt)
    | cons c2 xt =>
      simp only [wrapPH, List.cons_append, List.cons.injEq] at h
      obtain ⟨-, -, h3⟩ := h
      -- h3 : k ++ [')', ')'] = xt ++ ('(' :: '(' :: (p ++ [')', ')'])) ++ y
      have hmem : '(' ∈ k ++ [')', ')'] := by
        rw [h3]
        refine List.mem_append.mpr (Or.inl ?_)
        exact List.mem_append.mpr (Or.inr (List.mem_cons_self _ _))
      rcases List.mem_append.mp hmem with hm | hm
      · exact parenFree_no_open hk hm
      · simp at hm

/-- No nonempty suffix of the placeholder of `p` is a prefix of the
placeholder of a different key `k` (both keys paren-free). -/
theorem wrap_border {p k : List Char} (hp : parenFree p = true)
    (hk : parenFree k = true) (hne : p ≠ k) :
    ∀ e f g, f ≠ [] → wrapPH p = e ++ f → wrapPH k = f ++ g → False := by
  intro e f g hf hpf hkf
  cases e with
  | nil =>
    simp only [List.nil_append] at hpf
    exact wrap_not_infix hp hk hne [] g (by rw [hkf, ← hpf]; simp)
  | cons e1 et =>
    cases et with
    | nil =>
      -- e = [e1]: f = '(' :: (p ++ [')', ')'])
      simp only [wrapPH, List.cons_append, List.nil_append, List.cons.injEq] at hpf
      obtain ⟨-, hf2⟩ := hpf
      rw [← hf2] at hkf
      -- hkf : wrapPH k = ('(' :: (p ++ [')', ')'])) ++ g
      simp only [wrapPH, List.cons_append, List.cons.injEq] at hkf
      obtain ⟨-, hk3⟩ := hkf
      -- hk3 : '(' :: (k ++ [')', ')']) = (p ++ [')', ')']) ++ g
      cases p with
      | nil => simp at hk3
      | cons pc pt =>
        have hk4 : ('(' : Char) :: (k ++ [')', ')']) = pc :: (pt ++ [')', ')'] ++ g) := by
          simpa [List.append_assoc] using hk3
        have hpc : pc = '(' := ((List.cons.injEq .. ▸ hk4).1).symm
        exact parenFree_no_open hp (hpc ▸ List.mem_cons_self pc pt)
    | cons e2 et2 =>
      -- wrapPH p = e1 :: e2 :: (et2 ++ f), so f is a suffix of p ++ [')', ')']
      simp only [wrapPH, List.cons_append, List.cons.injEq] at hpf
      obtain ⟨-, -, hf3⟩ := hpf
      -- hf3 : p ++ [')', ')'] = et2 ++ f
      cases f with
      | nil => exact hf rfl
      | cons fc ft =>
        have hfc : fc = '(' := by
          simp only [wrapPH, List.cons_append, List.cons.injEq] at hkf
          exact hkf.1.symm
        have hmem : '(' ∈ p ++ [')', ')'] := by
          rw [hf3]
          exact List.mem_append.mpr (Or.inr (hfc ▸ List.mem_cons_self fc ft))
        rcases List.mem_append.mp hmem with hm | hm
        · exact parenFree_no_open hp hm
        · simp at hm

/-- Occurrences of the placeholders of two distinct paren-free keys never
overlap: around an occurrence of the placeholder of `k`, any occurrence of
the placeholder of `p` lies entirely before or entirely after it. -/
theorem wrap_no_overlap {p k : List Char} (hp : parenFree p = true)
    (hk : parenFree k = true) (hne : p ≠ k) {a b c d : List Char}
    (h : a ++ wrapPH p ++ b = c ++ wrapPH k ++ d) :
    (∃ x y, c = x ++ wrapPH p ++ y) ∨ (∃ x y, d = x ++ wrapPH p ++ y) := by
  have h' : a ++ (wrapPH p ++ b) = c ++ (wrapPH k ++ d) := by
    simpa [List.append_assoc] using h
  rcases List.append_eq_append_iff.mp h' with ⟨e, hc, hrest⟩ | ⟨e, ha, hrest⟩
  · -- c = a ++ e and wrapPH p ++ b = e ++ (wrapPH k ++ d)
    rcases List.append_eq_append_iff.mp hrest with ⟨f, he, hb⟩ | ⟨f, hwp, hrest2⟩
    · -- e = wrapPH p ++ f
      exact Or.inl ⟨a, f, by rw [hc, he]; simp [List.append_assoc]⟩
    · -- wrapPH p = e ++ f and wrapPH k ++ d = f ++ b
      by_cases hf : f = []
      · subst hf
        exact Or.inl ⟨a, [], by rw [hc, hwp]; simp⟩
      · rcases List.append_eq_append_iff.mp hrest2 with ⟨g, hfg, hd⟩ | ⟨g, hwk, hb⟩
        · -- f = wrapPH k ++ g: the placeholder of k sits inside that of p
          exfalso
          exact wrap_not_infix hk hp (fun hq => hne hq.symm) e g
            (by rw [hwp, hfg]; simp [List.append_assoc])
        · -- wrapPH k = f ++ g with f a nonempty suffix of wrapPH p
          exact absurd (wrap_border hp hk hne e f g hf hwp hwk) (fun q => q)
  · -- a = c ++ e and wrapPH k ++ d = e ++ (wrapPH p ++ b)
    rcases List.append_eq_append_iff.mp hrest with ⟨f, he, hd⟩ | ⟨f, hwk, hrest2⟩
    · -- e = wrapPH k ++ f, d = f ++ (wrapPH p ++ b)
      exact Or.inr ⟨f, b, by rw [hd]; simp [List.append_assoc]⟩
    · -- wrapPH k = e ++ f and wrapPH p ++ b = f ++ d
      by_cases hf : f = []
      · subst hf
        simp only [List.nil_append] at hrest2
        exact Or.inr ⟨[], b, by rw [← hrest2]; simp⟩
      · rcases List.append_eq_append_iff.mp hrest2 with ⟨g, hfg, hd2⟩ | ⟨g, hwp, hd2⟩
        · -- f = wrapPH p ++ g: the placeholder of p sits inside that of k
          exfalso
          exact wrap_not_infix hp hk hne e g (by rw [hwk, hfg]; simp [List.append_assoc])
        · -- wrapPH p = f ++ g with f a nonempty suffix of wrapPH k
          exact absurd (wrap_border hk hp (fun hq => hne hq.symm) e f g hf hwk hwp)
            (fun q => q)

/-! ## Pass-through of unmatched placeholders -/

/-- A placeholder is never the empty string. -/
theorem wrapPH_ne_nil (p : List Char) : wrapPH p ≠ [] := by
  simp [wrapPH]

/-- One global-replace pass for the placeholder of key `k` preserves the
occurrence of the placeholder of any different paren-free key `p`. -/
theorem replaceGo_passthrough {p k : List Char} (hp : parenFree p = true)
    (hk : parenFree k = true) (hne : p ≠ k) (v : List Char) :
    ∀ fuel done todo, todo.length ≤ fuel →
    containsSub todo (wrapPH p) = true →
    containsSub (replaceGo (wrapPH k) v fuel done todo) (wrapPH p) = true := by
  intro fuel
  induction fuel with
  | zero =>
    intro done todo h hq
    have htodo : todo = [] := List.eq_nil_of_length_eq_zero (Nat.le_zero.mp h)
    subst htodo
    rw [containsSub_nil (wrapPH_ne_nil p)] at hq
    exact absurd hq (by simp)
  | succ fuel ih =>
    intro done todo h hq
    cases hsp : splitFirst (wrapPH k) todo with
    | none =>
      rw [replaceGo, hsp]
      exact hq
    | some pp =>
      obtain ⟨pre, post⟩ := pp
      have heq := splitFirst_eq_append hsp
      obtain ⟨x, y, hxy⟩ := (containsSub_iff todo (wrapPH p)).mp hq
      have hcomb : x ++ wrapPH p ++ y = pre ++ wrapPH k ++ post := by
        rw [← hxy, ← heq]
      rw [replaceGo, hsp]
      show containsSub
        (pre ++ expandRepl (done ++ pre) (wrapPH k) post v ++
          replaceGo (wrapPH k) v fuel (done ++ pre ++ wrapPH k) post) (wrapPH p) = true
      rcases wrap_no_overlap hp hk hne hcomb with ⟨x2, y2, hpre⟩ | ⟨x2, y2, hpost⟩
      · -- the occurrence lies inside `pre`, which is kept verbatim
        have h1 : containsSub pre (wrapPH p) = true := containsSub_of_eq hpre
        have := containsSub_append_right
          (expandRepl (done ++ pre) (wrapPH k) post v ++
            replaceGo (wrapPH k) v fuel (done ++ pre ++ wrapPH k) post) h1
        simpa [List.append_assoc] using this
      · -- the occurrence lies inside `post`: use the induction hypothesis
        have hlen : post.length ≤ fuel := by
          have := splitFirst_post_length (wrapPH_ne_nil k) hsp
          omega
        have h1 : containsSub post (wrapPH p) = true := containsSub_of_eq hpost
        have h2 := ih (done ++ pre ++ wrapPH k) post hlen h1
        have := containsSub_append_left
          (pre ++ expandRepl (done ++ pre) (wrapPH k) post v) h2
        simpa [List.append_assoc] using this

/-- `jsReplaceAll` version of `replaceGo_passthrough`. -/
theorem jsReplaceAll_passthrough {p k : List Char} (hp : parenFree p = true)
    (hk : parenFree k = true) (hne : p ≠ k) (s v : List Char)
    (hq : containsSub s (wrapPH p) = true) :
    containsSub (jsReplaceAll s (wrapPH k) v) (wrapPH p) = true := by
  have hne2 : (wrapPH k).isEmpty = false := by simp [wrapPH]
  rw [jsReplaceAll, hne2]
  exact replaceGo_passthrough hp hk hne v s.length [] s (Nat.le_refl _) hq

/-- With an empty signature `renderWithRow` is exactly the substitution
passes. -/
theorem renderWithRow_no_sig (content : List Char) (headers : List (List Char))
    (row : List Cell) :
    renderWithRow content headers row [] = renderPrefix content headers row headers.length :=
  rfl

/-- The header consumed by pass `k` is one of the headers. -/
theorem headerAt_mem {headers : List (List Char)} {k : Nat} (h : k < headers.length) :
    headerAt headers k ∈ headers := by
  rw [headerAt, List.getD_eq_getElem headers [] h]
  exact List.getElem_mem h

/-- All substitution passes preserve the occurrence of a placeholder whose
paren-free name is not among the trimmed headers. -/
theorem renderPrefix_passthrough (content : List Char) (headers : List (List Char))
    (row : List Cell) {p : List Char} (hp : parenFree p = true)
    (hheads : ∀ h ∈ headers, parenFree (jsTrim h) = true)
    (hnot : ∀ h ∈ headers, jsTrim h ≠ p) :
    ∀ k, k ≤ headers.length → containsSub content (wrapPH p) = true →
    containsSub (renderPrefix content headers row k) (wrapPH p) = true := by
  intro k
  induction k with
  | zero => intro _ hq; exact hq
  | succ k ih =>
    intro hk hq
    have hklt : k < headers.length := Nat.lt_of_succ_le hk
    have hmem := headerAt_mem hklt
    rw [renderPrefix]
    exact jsReplaceAll_passthrough hp (hheads _ hmem)
      (fun he => hnot _ hmem he.symm) _ _ (ih (Nat.le_of_lt hklt) hq)

/-! ## Claim C9: the compiled placeholder regex is literal -/

/-- Unfolding of `lexRegex` on an escape pair. -/
theorem lexRegex_cons_escaped (c : Char) (t : List Char)
    (hm : regexMetaChars.contains c = true) :
    lexRegex ('\\' :: c :: t) = (lexRegex t).map (RTok.lit c :: ·) := by
  have hmem : c ∈ regexMetaChars := by simpa using hm
  rw [lexRegex.eq_def]
  simp [hmem]

/-- Unfolding of `lexRegex` on a non-backslash character. -/
theorem lexRegex_cons_plain (c : Char) (t : List Char) (hc : c ≠ '\\') :
    lexRegex (c :: t) =
      (lexRegex t).map ((if regexMetaChars.contains c then RTok.meta c else RTok.lit c) :: ·) := by
  rw [lexRegex.eq_def]
  simp [hc]

/-- Lexing an escaped key produces exactly its literal tokens. -/
theorem lexRegex_escRegex_append (s : List Char) :
    ∀ rest toks, lexRegex rest = some toks →
    lexRegex (escRegex s ++ rest) = some (s.map RTok.lit ++ toks) := by
  induction s with
  | nil => intro rest toks h; simpa [escRegex] using h
  | cons c t ih =>
    intro rest toks h
    by_cases hm : regexMetaChars.contains c = true
    · rw [escRegex, if_pos hm]
      have : ('\\' :: c :: []) ++ (escRegex t ++ rest) = '\\' :: c :: (escRegex t ++ rest) := rfl
      simp only [List.cons_append, List.nil_append, List.append_assoc]
      rw [lexRegex_cons_escaped c _ hm, ih rest toks h]
      simp
    · have hm2 : regexMetaChars.contains c = false := by
        cases hq : regexMetaChars.contains c with
        | false => rfl
        | true => exact absurd hq hm
      have hc : c ≠ '\\' := by
        intro he
        rw [he] at hm2
        simp [regexMetaChars] at hm2
      have hmem : c ∉ regexMetaChars := by
        intro hq
        rw [(by simpa using hq : regexMetaChars.contains c = true)] at hm2
        exact absurd hm2 (by simp)
      rw [escRegex, if_neg (by simpa using hmem)]
      simp only [List.cons_append, List.nil_append, List.append_assoc]
      rw [lexRegex_cons_plain c _ hc, ih rest toks h]
      simp [hmem]

/-- Claim C9 (confirmed): `renderWithRow` escapes every regex metacharacter
of the (trimmed) header before compiling its substitution regex, so the
compiled pattern is a pure literal-token spelling of the placeholder
`((` + trimmed header + `))` — a header never contributes a metacharacter,
i.e. it never acts as a regular expression over the template. -/
theorem render_regex_escape_literal (h : List Char) :
    lexRegex (regexSourceOf h) = some ((wrapPH (jsTrim h)).map RTok.lit) := by
  have hbase : lexRegex ['\\', ')', '\\', ')'] = some [RTok.lit ')', RTok.lit ')'] := by
    decide
  have hmid := lexRegex_escRegex_append (jsTrim h) _ _ hbase
  have hopen : regexMetaChars.contains '(' = true := by decide
  rw [regexSourceOf]
  simp only [List.cons_append, List.nil_append]
  rw [lexRegex_cons_escaped '(' _ hopen, lexRegex_cons_escaped '(' _ hopen, hmid]
  simp [wrapPH, List.map_append]

/-! ## Claim C2: per-pass substitution behaviour of the renderer -/

/-- Claim C2 counterexample: the code trims the header before building the
placeholder pattern, so for the header `' Name '` the verbatim placeholder
`(( Name ))` is NOT replaced (the pattern looked for is `((Name))`): the
render leaves the text unchanged instead of producing `x`. -/
theorem render_trim_counterexample :
    renderWithRow (sl "(( Name ))") [sl " Name "] [some (sl "x")] [] = sl "(( Name ))" ∧
    containsSub (renderWithRow (sl "(( Name ))") [sl " Name "] [some (sl "x")] [])
      (wrapPH (sl " Name ")) = true ∧
    renderWithRow (sl "(( Name ))") [sl " Name "] [some (sl "x")] [] ≠ sl "x" := by
  refine ⟨by decide, by decide, by decide⟩

/-- Claim C2 (amended): each render pass `i` replaces every leftmost,
non-overlapping literal occurrence of the placeholder of the TRIMMED header
`i` by the display string of row cell `i` (dollar-free, since a JavaScript
string replacement expands dollar patterns): the pass input splits into
occurrence-free chunks joined by the placeholder and the pass output is the
same chunks joined by the value.  The value is the empty string whenever the
row is shorter than the header list.  A placeholder whose paren-free name is
not among the trimmed headers is left intact (for paren-free trimmed
headers). -/
theorem render_per_pass_characterization (content : List Char)
    (headers : List (List Char)) (row : List Cell) :
    (∀ i, i < headers.length → dollarFree (cellStr row i) = true →
      ∃ chunks, chunks ≠ [] ∧
        renderPrefix content headers row i =
          joinWith (wrapPH (jsTrim (headerAt headers i))) chunks ∧
        renderPrefix content headers row (i + 1) = joinWith (cellStr row i) chunks ∧
        ∀ c ∈ chunks, containsSub c (wrapPH (jsTrim (headerAt headers i))) = false) ∧
    (∀ i, row.length ≤ i → cellStr row i = []) ∧
    (∀ p, parenFree p = true → (∀ h ∈ headers, parenFree (jsTrim h) = true) →
      (∀ h ∈ headers, jsTrim h ≠ p) →
      containsSub content (wrapPH p) = true →
      containsSub (renderWithRow content headers row []) (wrapPH p) = true) := by
  refine ⟨?_, ?_, ?_⟩
  · intro i _ hv
    obtain ⟨chunks, hne, h1, h2, h3⟩ :=
      @jsReplaceAll_decomp (wrapPH (jsTrim (headerAt headers i))) _
        (renderPrefix content headers row i) (wrapPH_ne_nil _) hv
    exact ⟨chunks, hne, h1, by rw [renderPrefix]; exact h2, h3⟩
  · intro i hi
    rw [cellStr, List.getD_eq_default row none hi]
  · intro p hp hheads hnot hq
    rw [renderWithRow_no_sig]
    exact renderPrefix_passthrough content headers row hp hheads hnot
      headers.length (Nat.le_refl _) hq

/-- Witness for `render_per_pass_characterization` at a concrete template:
pass 0 replaces `((Name))` by `Ann` and the unknown placeholder
`((Unknown))` survives the render. -/
theorem render_per_pass_witness :
    (∃ chunks, chunks ≠ [] ∧
      renderPrefix (sl "Hi ((Name)) ((Unknown))") [sl "Name"] [some (sl "Ann")] 0 =
        joinWith (wrapPH (jsTrim (headerAt [sl "Name"] 0))) chunks ∧
      renderPrefix (sl "Hi ((Name)) ((Unknown))") [sl "Name"] [some (sl "Ann")] 1 =
        joinWith (cellStr [some (sl "Ann")] 0) chunks ∧
      ∀ c ∈ chunks,
        containsSub c (wrapPH (jsTrim (headerAt [sl "Name"] 0))) = false) ∧
    containsSub
      (renderWithRow (sl "Hi ((Name)) ((Unknown))") [sl "Name"] [some (sl "Ann")] [])
      (wrapPH (sl "Unknown")) = true := by
  have h := render_per_pass_characterization (sl "Hi ((Name)) ((Unknown))")
    [sl "Name"] [some (sl "Ann")]
  refine ⟨h.1 0 (by decide) (by decide), ?_⟩
  exact h.2.2 (sl "Unknown") (by decide) (by decide) (by decide) (by decide)

/-! ## Claim C3: the renderer is not idempotent in general -/

/-- Claim C3 counterexample: substitution can recreate a placeholder.  With
header `k`, value `k` and template `((((k))))`, the render output `((k))`
still contains the placeholder of the present header (whose cell is
non-null), and a second render changes the output again. -/
theorem render_not_idempotent_counterexample :
    renderWithRow (sl "((((k))))") [sl "k"] [some (sl "k")] [] = sl "((k))" ∧
    containsSub (renderWithRow (sl "((((k))))") [sl "k"] [some (sl "k")] [])
      (wrapPH (jsTrim (sl "k"))) = true ∧
    renderWithRow (renderWithRow (sl "((((k))))") [sl "k"] [some (sl "k")] [])
        [sl "k"] [some (sl "k")] [] ≠
      renderWithRow (sl "((((k))))") [sl "k"] [some (sl "k")] [] := by
  refine ⟨by decide, by decide, by decide⟩

/-- Claim C3 (amended): any text containing no occurrence of any present
(trimmed) header's placeholder is a fixed point of the renderer; in
particular, whenever a first render's output contains no such occurrence,
rendering that output again returns it unchanged. -/
theorem render_fixed_point_when_clean (content : List Char)
    (headers : List (List Char)) (row : List Cell)
    (hclean : ∀ i, i < headers.length →
      containsSub content (wrapPH (jsTrim (headerAt headers i))) = false) :
    renderWithRow content headers row [] = content := by
  rw [renderWithRow_no_sig]
  have main : ∀ k, k ≤ headers.length → renderPrefix content headers row k = content := by
    intro k
    induction k with
    | zero => intro _; rfl
    | succ k ih =>
      intro hk
      have hklt : k < headers.length := Nat.lt_of_succ_le hk
      rw [renderPrefix, ih (Nat.le_of_lt hklt)]
      exact jsReplaceAll_of_not_contains (hclean k hklt)
  exact main headers.length (Nat.le_refl _)

/-- Witness for `render_fixed_point_when_clean`: a text mentioning only an
absent placeholder renders to itself. -/
theorem render_fixed_point_witness :
    renderWithRow (sl "Hello ((Other))") [sl "Name"] [some (sl "Ann")] [] =
      sl "Hello ((Other))" :=
  render_fixed_point_when_clean (sl "Hello ((Other))") [sl "Name"] [some (sl "Ann")]
    (by decide)

/-! ## Claim C4: credential normalization -/

/-- A present nonempty field is truthy. -/
theorem truthyS_some_ne {s : List Char} (h : s ≠ []) : truthyS (some s) = true := by
  cases s with
  | nil => exact absurd rfl h
  | cons c t => rfl

/-- The `web` branch fails exactly on a falsy field and otherwise preserves
both fields. -/
theorem normalizeWebCreds_spec (w : RawCred) :
    ((∃ e, normalizeWebCreds w = Except.error e) ↔
      (truthyS w.client_id = false ∨ truthyS w.client_secret = false)) ∧
    (∀ cid csec, w.client_id = some cid → w.client_secret = some csec →
      cid ≠ [] → csec ≠ [] →
      ∃ n, normalizeWebCreds w = Except.ok n ∧
        n.client_id = cid ∧ n.client_secret = csec) := by
  constructor
  · cases hid : truthyS w.client_id with
    | false => simp [normalizeWebCreds, hid]
    | true =>
      cases hsec : truthyS w.client_secret with
      | false => simp [normalizeWebCreds, hid, hsec]
      | true =>
        rcases hru : w.redirect_uris with _ | uris
        · simp [normalizeWebCreds, hid, hsec, hru]
        · rcases hf : uris.find? isLocalhostUri with _ | ex
          · simp [normalizeWebCreds, hid, hsec, hru, hf]
          · simp [normalizeWebCreds, hid, hsec, hru, hf]
  · intro cid csec hcid hcsec hc1 hc2
    have hid : truthyS w.client_id = true := by rw [hcid]; exact truthyS_some_ne hc1
    have hsec : truthyS w.client_secret = true := by rw [hcsec]; exact truthyS_some_ne hc2
    rcases hru : w.redirect_uris with _ | uris
    · refine ⟨⟨cid, csec, none, false, none⟩, ?_, rfl, rfl⟩
      simp [normalizeWebCreds, hid, hsec, hru, hcid, hcsec]
      exact ⟨truthyS_some_ne hc1, truthyS_some_ne hc2⟩
    · rcases hf : uris.find? isLocalhostUri with _ | ex
      · refine ⟨⟨cid, csec, none, false, none⟩, ?_, rfl, rfl⟩
        simp [normalizeWebCreds, hid, hsec, hru, hf, hcid, hcsec]
        exact ⟨truthyS_some_ne hc1, truthyS_some_ne hc2⟩
      · refine ⟨⟨cid, csec, some ex, true, none⟩, ?_, rfl, rfl⟩
        simp [normalizeWebCreds, hid, hsec, hru, hf, hcid, hcsec]
        exact ⟨truthyS_some_ne hc1, truthyS_some_ne hc2⟩

/-- The `installed`/flat branch fails exactly on a falsy field and otherwise
preserves both fields. -/
theorem normalizeFlatCreds_spec (c : RawCred) :
    ((∃ e, normalizeFlatCreds c = Except.error e) ↔
      (truthyS c.client_id = false ∨ truthyS c.client_secret = false)) ∧
    (∀ cid csec, c.client_id = some cid → c.client_secret = some csec →
      cid ≠ [] → csec ≠ [] →
      ∃ n, normalizeFlatCreds c = Except.ok n ∧
        n.client_id = cid ∧ n.client_secret = csec) := by
  constructor
  · cases hid : truthyS c.client_id with
    | false => simp [normalizeFlatCreds, hid]
    | true =>
      cases hsec : truthyS c.client_secret with
      | false => simp [normalizeFlatCreds, hid, hsec]
      | true => simp [normalizeFlatCreds, hid, hsec]
  · intro cid csec hcid hcsec hc1 hc2
    have hid : truthyS c.client_id = true := by rw [hcid]; exact truthyS_some_ne hc1
    have hsec : truthyS c.client_secret = true := by rw [hcsec]; exact truthyS_some_ne hc2
    rcases hru : c.redirect_uris with _ | uris
    · refine ⟨⟨cid, csec, none, false, some (sl "127.0.0.1")⟩, ?_, rfl, rfl⟩
      simp [normalizeFlatCreds, hid, hsec, hru, hcid, hcsec]
      exact ⟨truthyS_some_ne hc1, truthyS_some_ne hc2⟩
    · cases hany : uris.any isLocalhostUri with
      | false =>
        refine ⟨⟨cid, csec, none, false, some (sl "127.0.0.1")⟩, ?_, rfl, rfl⟩
        simp [normalizeFlatCreds, hid, hsec, hru, hany, hcid, hcsec]
        exact ⟨truthyS_some_ne hc1, truthyS_some_ne hc2⟩
      | true =>
        refine ⟨⟨cid, csec, none, false, some (sl "localhost")⟩, ?_, rfl, rfl⟩
        simp [normalizeFlatCreds, hid, hsec, hru, hany, hcid, hcsec]
        exact ⟨truthyS_some_ne hc1, truthyS_some_ne hc2⟩

/-- Claim C4 (confirmed): for each of the three accepted credential shapes
(`web`, `installed`, flat), `normalizeCredentials` fails (with an
`InvalidCredentials`-class error) exactly when the shape's object lacks a
truthy `client_id` or `client_secret` — absent and empty both count as
lacking, matching the JavaScript truthiness test — and for every such object
carrying both fields (present and nonempty) it succeeds and returns them
unchanged in the `NormalizedCredentials`. -/
theorem normalizeCredentials_spec (doc : RawDoc) :
    (∀ w, doc.web = some w →
      ((∃ e, normalizeCredentials (some doc) = Except.error e) ↔
        (truthyS w.client_id = false ∨ truthyS w.client_secret = false)) ∧
      (∀ cid csec, w.client_id = some cid → w.client_secret = some csec →
        cid ≠ [] → csec ≠ [] →
        ∃ n, normalizeCredentials (some doc) = Except.ok n ∧
          n.client_id = cid ∧ n.client_secret = csec)) ∧
    (∀ c, doc.web = none → doc.installed = some c →
      ((∃ e, normalizeCredentials (some doc) = Except.error e) ↔
        (truthyS c.client_id = false ∨ truthyS c.client_secret = false)) ∧
      (∀ cid csec, c.client_id = some cid → c.client_secret = some csec →
        cid ≠ [] → csec ≠ [] →
        ∃ n, normalizeCredentials (some doc) = Except.ok n ∧
          n.client_id = cid ∧ n.client_secret = csec)) ∧
    (doc.web = none → doc.installed = none →
      ((∃ e, normalizeCredentials (some doc) = Except.error e) ↔
        (truthyS doc.flat.client_id = false ∨ truthyS doc.flat.client_secret = false)) ∧
      (∀ cid csec, doc.flat.client_id = some cid → doc.flat.client_secret = some csec →
        cid ≠ [] → csec ≠ [] →
        ∃ n, normalizeCredentials (some doc) = Except.ok n ∧
          n.client_id = cid ∧ n.client_secret = csec)) := by
  obtain ⟨web, installed, flat⟩ := doc
  refine ⟨?_, ?_, ?_⟩
  · intro w hw
    cases hw
    exact normalizeWebCreds_spec w
  · intro c hw hi
    cases hw
    cases hi
    exact normalizeFlatCreds_spec c
  · intro hw hi
    cases hw
    cases hi
    exact normalizeFlatCreds_spec flat

/-- Witness for `normalizeCredentials_spec`: a flat document with both
fields normalizes to a success carrying them unchanged, and a web document
missing its secret fails. -/
theorem normalizeCredentials_witness :
    (∃ n, normalizeCredentials
        (some ⟨none, none, ⟨some (sl "id"), some (sl "sec"), none⟩⟩) = Except.ok n ∧
      n.client_id = sl "id" ∧ n.client_secret = sl "sec") ∧
    (∃ e, normalizeCredentials
        (some ⟨some ⟨some (sl "id"), none, none⟩, none, ⟨none, none, none⟩⟩) =
      Except.error e) := by
  constructor
  · exact ((normalizeCredentials_spec ⟨none, none, ⟨some (sl "id"), some (sl "sec"), none⟩⟩).2.2
      rfl rfl).2 (sl "id") (sl "sec") rfl rfl (by decide) (by decide)
  · exact ((normalizeCredentials_spec ⟨some ⟨some (sl "id"), none, none⟩, none,
      ⟨none, none, none⟩⟩).1 ⟨some (sl "id"), none, none⟩ rfl).1.mpr (Or.inr rfl)

/-! ## Claim C6: ensureStatusColumn called twice -/

/-- Claim C6 counterexample: when the header write-back fails, the first
call appends `'Status'` but returns the sentinel `-1`; a second call then
finds the appended header and returns its index `1 ≠ -1`, so the second
call does not return the same index as the first. -/
theorem ensureStatusColumn_failed_write_counterexample :
    ensureStatusColumn false [sl "Email"] = (-1, [sl "Email", sl "Status"]) ∧
    ensureStatusColumn true [sl "Email", sl "Status"] = (1, [sl "Email", sl "Status"]) ∧
    (-1 : Int) ≠ 1 := by
  refine ⟨by decide, by decide, by decide⟩

/-- `'Status'` itself passes the case-insensitive trimmed search. -/
theorem isStatusHeader_status : isStatusHeader (sl "Status") = true := by decide

/-- After appending `'Status'` to a list without a status header, the search
finds it at the old length. -/
theorem findIdx_status_after_append {headers : List (List Char)}
    (h : headers.findIdx? isStatusHeader = none) :
    (headers ++ [sl "Status"]).findIdx? isStatusHeader = some headers.length := by
  rw [List.findIdx?_append, h]
  simp [List.findIdx?, isStatusHeader_status]

/-- Claim C6 (amended): two consecutive calls of `ensureStatusColumn` on the
same header list mutate it at most once (the second call never mutates), the
first call appends `'Status'` exactly when no header equals `'status'` after
trimming and lower-casing, and the second call returns the same column index
as the first PROVIDED the first call's header write-back succeeded (or a
status header already existed).  When that write-back fails, the first call
returns the sentinel `-1` while having already appended the header, and the
second call instead returns the appended index. -/
theorem ensureStatusColumn_second_call (headers : List (List Char)) (wk1 wk2 : Bool) :
    ((ensureStatusColumn wk2 (ensureStatusColumn wk1 headers).2).2 =
      (ensureStatusColumn wk1 headers).2) ∧
    ((ensureStatusColumn wk1 headers).2 = headers ∨
      (ensureStatusColumn wk1 headers).2 = headers ++ [sl "Status"]) ∧
    (∀ k, headers.findIdx? isStatusHeader = some k →
      (ensureStatusColumn wk1 headers).2 = headers ∧
      (ensureStatusColumn wk1 headers).1 = (k : Int)) ∧
    (headers.findIdx? isStatusHeader = none →
      (ensureStatusColumn wk1 headers).2 = headers ++ [sl "Status"] ∧
      (wk1 = false → (ensureStatusColumn wk1 headers).1 = -1)) ∧
    ((wk1 = true ∨ ∃ k, headers.findIdx? isStatusHeader = some k) →
      (ensureStatusColumn wk2 (ensureStatusColumn wk1 headers).2).1 =
        (ensureStatusColumn wk1 headers).1) := by
  cases hfind : headers.findIdx? isStatusHeader with
  | some k =>
    have h1 : ensureStatusColumn wk1 headers = ((k : Int), headers) := by
      rw [ensureStatusColumn, hfind]
    have h2 : ensureStatusColumn wk2 headers = ((k : Int), headers) := by
      rw [ensureStatusColumn, hfind]
    rw [h1]
    refine ⟨by rw [h2], Or.inl rfl, ?_, ?_, fun _ => by rw [h2]⟩
    · intro k2 hk2
      injection hk2 with h3
      exact ⟨rfl, by rw [h3]⟩
    · intro hnone
      cases hnone
  | none =>
    have h1 : ensureStatusColumn wk1 headers =
        (if wk1 then (((headers ++ [sl "Status"]).length - 1 : Nat) : Int) else -1,
          headers ++ [sl "Status"]) := by
      rw [ensureStatusColumn, hfind]
      cases wk1 <;> rfl
    have hfind2 := findIdx_status_after_append hfind
    have h2 : ensureStatusColumn wk2 (headers ++ [sl "Status"]) =
        ((headers.length : Int), headers ++ [sl "Status"]) := by
      rw [ensureStatusColumn, hfind2]
    rw [h1]
    refine ⟨by simp [h2], Or.inr rfl, ?_, fun _ => ⟨rfl, fun hw => by simp [hw]⟩, ?_⟩
    · intro k2 hk2
      cases hk2
    · rintro (hw | ⟨k2, hk2⟩)
      · rw [hw]
        simp [h2, List.length_append]
      · cases hk2

/-- Witness for `ensureStatusColumn_second_call`: on `["Email"]` with a
successful write the first call appends at index 1 and the second call
returns the same index without mutating. -/
theorem ensureStatusColumn_second_call_witness :
    ((ensureStatusColumn true (ensureStatusColumn true [sl "Email"]).2).2 =
      (ensureStatusColumn true [sl "Email"]).2) ∧
    (ensureStatusColumn true [sl "Email"]).2 = [sl "Email"] ++ [sl "Status"] ∧
    (ensureStatusColumn true (ensureStatusColumn true [sl "Email"]).2).1 =
      (ensureStatusColumn true [sl "Email"]).1 := by
  have h := ensureStatusColumn_second_call [sl "Email"] true true
  exact ⟨h.1, (h.2.2.2.1 (by decide)).1, h.2.2.2.2 (Or.inl rfl)⟩

/-! ## Claim C8: cancellation of scheduled jobs -/

/-- Claim C8 counterexample: the timer callback deletes the job from the
registry only in its `finally`, AFTER awaiting the campaign run.  While the
run is in flight the job is still registered, so `cancelScheduledJob`
returns success for a job whose runner has already been invoked — success is
not equivalent to "still pending, runner never invoked". -/
theorem cancel_after_fire_counterexample :
    (cancelScheduledJob
        (schedStep (schedStep ⟨[], []⟩ (SchedOp.schedule (sl "j")))
          (SchedOp.fireStart (sl "j"))) (sl "j")).1 = true ∧
    sl "j" ∈ (schedStep (schedStep ⟨[], []⟩ (SchedOp.schedule (sl "j")))
      (SchedOp.fireStart (sl "j"))).started := by
  refine ⟨by decide, by decide⟩

/-- Whatever happens later, a job that is out of the registry and was never
started stays unstarted (and stays out) as long as it is not re-scheduled. -/
theorem schedRun_never_starts (id : List Char) :
    ∀ ops : List SchedOp, ∀ s : SchedState,
    (∀ op ∈ ops, op ≠ SchedOp.schedule id) →
    id ∉ s.jobs → id ∉ s.started →
    id ∉ (schedRun s ops).started ∧ id ∉ (schedRun s ops).jobs := by
  intro ops
  induction ops with
  | nil => intro s _ hj hs; exact ⟨hs, hj⟩
  | cons op t ih =>
    intro s hops hj hs
    have hops' : ∀ op2 ∈ t, op2 ≠ SchedOp.schedule id :=
      fun op2 hm => hops op2 (List.mem_cons_of_mem op hm)
    have hstep : id ∉ (schedStep s op).jobs ∧ id ∉ (schedStep s op).started := by
      cases op with
      | fireStart j =>
        rw [schedStep]
        by_cases hcond : j ∈ s.jobs ∧ j ∉ s.started
        · rw [if_pos hcond]
          refine ⟨hj, ?_⟩
          intro hmem
          rcases List.mem_cons.mp hmem with he | he
          · exact hj (he ▸ hcond.1)
          · exact hs he
        · rw [if_neg hcond]; exact ⟨hj, hs⟩
      | fireEnd j =>
        rw [schedStep]
        by_cases hcond : j ∈ s.started
        · rw [if_pos hcond]
          exact ⟨fun hmem => hj (List.mem_of_mem_filter hmem), hs⟩
        · rw [if_neg hcond]; exact ⟨hj, hs⟩
      | cancel j =>
        rw [schedStep, cancelScheduledJob]
        by_cases hcond : j ∈ s.jobs
        · rw [if_pos hcond]
          exact ⟨fun hmem => hj (List.mem_of_mem_filter hmem), hs⟩
        · rw [if_neg hcond]; exact ⟨hj, hs⟩
      | schedule j =>
        rw [schedStep, scheduleJob]
        have hne : j ≠ id := by
          intro he
          exact hops (SchedOp.schedule j) (List.mem_cons_self _ _) (by rw [he])
        refine ⟨?_, hs⟩
        intro hmem
        rcases List.mem_cons.mp hmem with he | he
        · exact hne he.symm
        · exact hj he
    have := ih (schedStep s op) hops' hstep.1 hstep.2
    exact this

/-- Claim C8 (amended): `cancelScheduledJob(id)` succeeds exactly when `id`
is still in the registry — i.e. scheduled and not yet finished; on success
the job is removed; when the id is unknown or the job has finished (fired
jobs are removed at completion regardless of outcome) it returns failure and
changes nothing.  Cancelling a job whose runner has NOT yet been invoked
guarantees the runner is never invoked by any later events (short of
re-scheduling the same id) — but a cancel issued while a fired run is still
in flight also returns success without un-invoking the runner. -/
theorem cancelScheduledJob_spec (s : SchedState) (id : List Char) :
    ((cancelScheduledJob s id).1 = true ↔ id ∈ s.jobs) ∧
    id ∉ (cancelScheduledJob s id).2.jobs ∧
    (cancelScheduledJob s id).2.started = s.started ∧
    (id ∉ s.jobs → cancelScheduledJob s id = (false, s)) ∧
    (id ∉ s.started →
      ∀ ops : List SchedOp, (∀ op ∈ ops, op ≠ SchedOp.schedule id) →
        id ∉ (schedRun (cancelScheduledJob s id).2 ops).started) := by
  by_cases hmem : id ∈ s.jobs
  · rw [cancelScheduledJob, if_pos hmem]
    refine ⟨by simp [hmem], ?_, rfl, fun hn => absurd hmem hn, ?_⟩
    · intro hq
      have := List.mem_filter.mp hq
      simp at this
    · intro hstart ops hops
      have hj : id ∉ s.jobs.filter (fun x => x != id) := by
        intro hq
        have := List.mem_filter.mp hq
        simp at this
      exact (schedRun_never_starts id ops
        ⟨s.jobs.filter (fun x => x != id), s.started⟩ hops hj hstart).1
  · rw [cancelScheduledJob, if_neg hmem]
    refine ⟨by simp [hmem], hmem, rfl, fun _ => rfl, ?_⟩
    · intro hstart ops hops
      exact (schedRun_never_starts id ops s hops hmem hstart).1

/-- Witness for `cancelScheduledJob_spec`: cancelling a pending job returns
success and the runner is never invoked even if its timer later tries to
fire. -/
theorem cancelScheduledJob_spec_witness :
    (cancelScheduledJob ⟨[sl "j"], []⟩ (sl "j")).1 = true ∧
    sl "j" ∉ (schedRun (cancelScheduledJob ⟨[sl "j"], []⟩ (sl "j")).2
      [SchedOp.fireStart (sl "j"), SchedOp.fireEnd (sl "j")]).started := by
  have h := cancelScheduledJob_spec ⟨[sl "j"], []⟩ (sl "j")
  refine ⟨h.1.mpr (by decide), ?_⟩
  exact h.2.2.2.2 (by decide) [SchedOp.fireStart (sl "j"), SchedOp.fireEnd (sl "j")]
    (by decide)

/-! ## Campaign loop: unfolding and event-count lemmas -/

section CampaignLemmas

variable (menv : MailEnv) (env : RunEnv) (p : CampaignParams) (emailIdx : Nat)
variable (sig : List Char)

/-- The loop over no rows emits nothing and does not fail. -/
theorem sendLoop_nil (headers : List (List Char)) (i : Nat) :
    sendLoop menv env p emailIdx sig headers i [] = ([], none) := rfl

/-- A row with a falsy recipient is skipped. -/
theorem sendLoop_cons_skip {row : List Cell} (headers : List (List Char)) (i : Nat)
    (rest : List (List Cell)) (hto : (cellStr row emailIdx).isEmpty = true) :
    sendLoop menv env p emailIdx sig headers i (row :: rest) =
      sendLoop menv env p emailIdx sig headers (i + 1) rest := by
  rw [sendLoop]
  simp only [hto, if_true]

/-- A failing send ends the loop at once with only the attempt recorded. -/
theorem sendLoop_cons_fail {row : List Cell} (headers : List (List Char)) (i : Nat)
    (rest : List (List Cell)) (hto : (cellStr row emailIdx).isEmpty = false)
    (hf : env.sendFails i = true) :
    sendLoop menv env p emailIdx sig headers i (row :: rest) =
      ([RunEvent.attempt i (cellStr row emailIdx)], some i) := by
  rw [sendLoop]
  simp only [hto, hf, Bool.false_eq_true, if_false, if_true]

/-- A successful send records its block of events and continues. -/
theorem sendLoop_cons_ok {row : List Cell} (headers : List (List Char)) (i : Nat)
    (rest : List (List Cell)) (hto : (cellStr row emailIdx).isEmpty = false)
    (hf : env.sendFails i = false) :
    sendLoop menv env p emailIdx sig headers i (row :: rest) =
      (RunEvent.attempt i (cellStr row emailIdx) :: RunEvent.sent i ::
        RunEvent.statusWrite i (env.statusWriteOk i) ::
        RunEvent.slept (effectiveDelaySeconds p.delaySeconds * 1000 +
          env.jitterDraw i % 2000) ::
        (sendLoop menv env p emailIdx sig
          (ensureStatusColumn (env.statusWriteOk i) headers).2 (i + 1) rest).1,
       (sendLoop menv env p emailIdx sig
          (ensureStatusColumn (env.statusWriteOk i) headers).2 (i + 1) rest).2) := by
  rw [sendLoop]
  simp only [hto, hf, Bool.false_eq_true, if_false]

end CampaignLemmas

/-- Attempt events for row `j` in the empty trace. -/
theorem attemptCount_nil (j : Nat) : attemptCount [] j = 0 := rfl

/-- Counting through an `attempt` event. -/
theorem attemptCount_cons_attempt (i : Nat) (toAddr : List Char) (evs : List RunEvent)
    (j : Nat) :
    attemptCount (RunEvent.attempt i toAddr :: evs) j =
      attemptCount evs j + (if i = j then 1 else 0) := by
  rw [attemptCount, attemptCount, List.countP_cons]
  by_cases h : i = j
  · simp [h]
  · simp [h]

/-- Counting through a non-`attempt` event. -/
theorem attemptCount_cons_other (e : RunEvent) (evs : List RunEvent) (j : Nat)
    (h : ∀ i toAddr, e ≠ RunEvent.attempt i toAddr) :
    attemptCount (e :: evs) j = attemptCount evs j := by
  rw [attemptCount, attemptCount, List.countP_cons]
  cases e with
  | attempt i toAddr => exact absurd rfl (h i toAddr)
  | sent i => simp
  | statusWrite i ok => simp
  | slept ms => simp

/-- Index shift of the per-row attempt condition past a consumed row. -/
theorem row_cond_shift {i j : Nat} (hj : i + 1 ≤ j) (row : List Cell)
    (rest : List (List Cell)) (emailIdx : Nat) :
    (i + 1 ≤ j ∧ j - (i + 1) < rest.length ∧
      (cellStr (rest.getD (j - (i + 1)) []) emailIdx).isEmpty = false) ↔
    (i ≤ j ∧ j - i < (row :: rest).length ∧
      (cellStr ((row :: rest).getD (j - i) []) emailIdx).isEmpty = false) := by
  have hj2 : j - i = (j - (i + 1)) + 1 := by omega
  rw [hj2, List.getD_cons_succ, List.length_cons]
  constructor
  · rintro ⟨u, v, w⟩
    exact ⟨by omega, by omega, w⟩
  · rintro ⟨u, v, w⟩
    exact ⟨hj, by omega, w⟩

/-- In a completed loop every row with a truthy recipient cell is attempted
exactly once and nothing else is attempted. -/
theorem sendLoop_completed_count (menv : MailEnv) (env : RunEnv) (p : CampaignParams)
    (emailIdx : Nat) (sig : List Char) :
    ∀ (rows : List (List Cell)) (headers : List (List Char)) (i : Nat)
      (evs : List RunEvent),
    sendLoop menv env p emailIdx sig headers i rows = (evs, none) →
    ∀ j, attemptCount evs j =
      if i ≤ j ∧ j - i < rows.length ∧
          (cellStr (rows.getD (j - i) []) emailIdx).isEmpty = false
      then 1 else 0 := by
  intro rows
  induction rows with
  | nil =>
    intro headers i evs h j
    rw [sendLoop_nil] at h
    obtain ⟨h1, -⟩ := Prod.mk.injEq .. ▸ h
    rw [← h1, attemptCount_nil]
    simp
  | cons row rest ih =>
    intro headers i evs h j
    cases hto : (cellStr row emailIdx).isEmpty with
    | true =>
      rw [sendLoop_cons_skip menv env p emailIdx sig headers i rest hto] at h
      rw [ih headers (i + 1) evs h j]
      by_cases h1 : i + 1 ≤ j
      · rw [if_congr (row_cond_shift h1 row rest emailIdx) rfl rfl]
      · rw [if_neg (fun hq => h1 hq.1), if_neg ?_]
        rintro ⟨u, v, w⟩
        have hji : j = i := by omega
        subst hji
        rw [Nat.sub_self, List.getD_cons_zero, hto] at w
        cases w
    | false =>
      cases hf : env.sendFails i with
      | true =>
        rw [sendLoop_cons_fail menv env p emailIdx sig headers i rest hto hf] at h
        obtain ⟨-, h2⟩ := Prod.mk.injEq .. ▸ h
        cases h2
      | false =>
        rw [sendLoop_cons_ok menv env p emailIdx sig headers i rest hto hf] at h
        obtain ⟨h1, h2⟩ := Prod.mk.injEq .. ▸ h
        have hnext : sendLoop menv env p emailIdx sig
            (ensureStatusColumn (env.statusWriteOk i) headers).2 (i + 1) rest =
            ((sendLoop menv env p emailIdx sig
              (ensureStatusColumn (env.statusWriteOk i) headers).2 (i + 1) rest).1,
             none) := by
          rw [← h2]
        have hcount := ih _ (i + 1) _ hnext j
        rw [← h1]
        rw [attemptCount_cons_attempt,
          attemptCount_cons_other _ _ _ (by intro a b hq; cases hq),
          attemptCount_cons_other _ _ _ (by intro a b hq; cases hq),
          attemptCount_cons_other _ _ _ (by intro a b hq; cases hq), hcount]
        by_cases hij : i = j
        · subst hij
          have hreq : i ≤ i ∧ i - i < (row :: rest).length ∧
              (cellStr ((row :: rest).getD (i - i) []) emailIdx).isEmpty = false :=
            ⟨Nat.le_refl i, by simp, by rw [Nat.sub_self, List.getD_cons_zero]; exact hto⟩
          rw [if_neg (fun hq => (by omega : ¬ i + 1 ≤ i) hq.1), if_pos hreq]
          simp
        · rw [if_neg hij]
          by_cases h1 : i + 1 ≤ j
          · rw [if_congr (row_cond_shift h1 row rest emailIdx) rfl rfl, Nat.add_zero]
          · rw [if_neg (fun hq => h1 hq.1), if_neg ?_, Nat.add_zero]
            rintro ⟨u, v, w⟩
            have hji : j = i := by omega
            exact hij hji.symm

/-- In an aborted loop the failing row's send failed, that row was attempted
exactly once, and no later row was ever attempted. -/
theorem sendLoop_aborted_shape (menv : MailEnv) (env : RunEnv) (p : CampaignParams)
    (emailIdx : Nat) (sig : List Char) :
    ∀ (rows : List (List Cell)) (headers : List (List Char)) (i : Nat)
      (evs : List RunEvent) (m : Nat),
    sendLoop menv env p emailIdx sig headers i rows = (evs, some m) →
    env.sendFails m = true ∧ i ≤ m ∧ attemptCount evs m = 1 ∧
      ∀ k, m < k → attemptCount evs k = 0 := by
  intro rows
  induction rows with
  | nil =>
    intro headers i evs m h
    rw [sendLoop_nil] at h
    obtain ⟨-, h2⟩ := Prod.mk.injEq .. ▸ h
    cases h2
  | cons row rest ih =>
    intro headers i evs m h
    cases hto : (cellStr row emailIdx).isEmpty with
    | true =>
      rw [sendLoop_cons_skip menv env p emailIdx sig headers i rest hto] at h
      obtain ⟨hs, hm, hc, hk⟩ := ih headers (i + 1) evs m h
      exact ⟨hs, by omega, hc, hk⟩
    | false =>
      cases hf : env.sendFails i with
      | true =>
        rw [sendLoop_cons_fail menv env p emailIdx sig headers i rest hto hf] at h
        obtain ⟨h1, h2⟩ := Prod.mk.injEq .. ▸ h
        injection h2 with h3
        subst h3
        rw [← h1]
        refine ⟨hf, Nat.le_refl i, ?_, ?_⟩
        · rw [attemptCount_cons_attempt, attemptCount_nil, if_pos rfl]
        · intro k hk
          rw [attemptCount_cons_attempt, attemptCount_nil,
            if_neg (by omega : ¬ i = k)]
      | false =>
        rw [sendLoop_cons_ok menv env p emailIdx sig headers i rest hto hf] at h
        obtain ⟨h1, h2⟩ := Prod.mk.injEq .. ▸ h
        have hnext : sendLoop menv env p emailIdx sig
            (ensureStatusColumn (env.statusWriteOk i) headers).2 (i + 1) rest =
            ((sendLoop menv env p emailIdx sig
              (ensureStatusColumn (env.statusWriteOk i) headers).2 (i + 1) rest).1,
             some m) := by
          rw [← h2]
        obtain ⟨hs, hm, hc, hk⟩ := ih _ (i + 1) _ m hnext
        rw [← h1]
        have hne : ¬ i = m := by omega
        refine ⟨hs, by omega, ?_, ?_⟩
        · rw [attemptCount_cons_attempt,
            attemptCount_cons_other _ _ _ (by intro a b hq; cases hq),
            attemptCount_cons_other _ _ _ (by intro a b hq; cases hq),
            attemptCount_cons_other _ _ _ (by intro a b hq; cases hq),
            hc, if_neg hne]
        · intro k hkgt
          rw [attemptCount_cons_attempt,
            attemptCount_cons_other _ _ _ (by intro a b hq; cases hq),
            attemptCount_cons_other _ _ _ (by intro a b hq; cases hq),
            attemptCount_cons_other _ _ _ (by intro a b hq; cases hq),
            hk k hkgt, if_neg (by omega : ¬ i = k)]

/-- Every `sent` event of the loop is immediately followed by the status
write-back and the paced sleep for that row. -/
theorem sendLoop_sent_followed (menv : MailEnv) (env : RunEnv) (p : CampaignParams)
    (emailIdx : Nat) (sig : List Char) :
    ∀ (rows : List (List Cell)) (headers : List (List Char)) (i : Nat)
      (a : List RunEvent) (j : Nat) (b : List RunEvent),
    (sendLoop menv env p emailIdx sig headers i rows).1 = a ++ RunEvent.sent j :: b →
    ∃ ok rest, b = RunEvent.statusWrite j ok ::
      RunEvent.slept (effectiveDelaySeconds p.delaySeconds * 1000 +
        env.jitterDraw j % 2000) :: rest := by
  intro rows
  induction rows with
  | nil =>
    intro headers i a j b h
    rw [sendLoop_nil] at h
    cases a <;> simp at h
  | cons row rest ih =>
    intro headers i a j b h
    cases hto : (cellStr row emailIdx).isEmpty with
    | true =>
      rw [sendLoop_cons_skip menv env p emailIdx sig headers i rest hto] at h
      exact ih headers (i + 1) a j b h
    | false =>
      cases hf : env.sendFails i with
      | true =>
        rw [sendLoop_cons_fail menv env p emailIdx sig headers i rest hto hf] at h
        cases a with
        | nil => simp at h
        | cons x a1 =>
          simp only [List.cons_append, List.cons.injEq] at h
          obtain ⟨-, h2⟩ := h
          cases a1 <;> simp at h2
      | false =>
        rw [sendLoop_cons_ok menv env p emailIdx sig headers i rest hto hf] at h
        simp only at h
        cases a with
        | nil =>
          simp only [List.nil_append, List.cons.injEq] at h
          cases h.1
        | cons x a1 =>
          simp only [List.cons_append, List.cons.injEq] at h
          obtain ⟨-, h2⟩ := h
          cases a1 with
          | nil =>
            simp only [List.nil_append, List.cons.injEq] at h2
            obtain ⟨hsent, h3⟩ := h2
            injection hsent with hij
            subst hij
            exact ⟨env.statusWriteOk i, _, h3.symm⟩
          | cons y a2 =>
            simp only [List.cons_append, List.cons.injEq] at h2
            obtain ⟨-, h3⟩ := h2
            cases a2 with
            | nil => simp at h3
            | cons z a3 =>
              simp only [List.cons_append, List.cons.injEq] at h3
              obtain ⟨-, h4⟩ := h3
              cases a3 with
              | nil => simp at h4
              | cons w a4 =>
                simp only [List.cons_append, List.cons.injEq] at h4
                obtain ⟨-, h5⟩ := h4
                exact ih _ (i + 1) a4 j b h5

/-- Every sleep duration the loop emits has the paced shape
`effectiveDelay * 1000 + jitter draw mod 2000`. -/
theorem sendLoop_slept_shape (menv : MailEnv) (env : RunEnv) (p : CampaignParams)
    (emailIdx : Nat) (sig : List Char) :
    ∀ (rows : List (List Cell)) (headers : List (List Char)) (i : Nat) (ms : Nat),
    RunEvent.slept ms ∈ (sendLoop menv env p emailIdx sig headers i rows).1 →
    ∃ j, ms = effectiveDelaySeconds p.delaySeconds * 1000 + env.jitterDraw j % 2000 := by
  intro rows
  induction rows with
  | nil =>
    intro headers i ms h
    rw [sendLoop_nil] at h
    simp at h
  | cons row rest ih =>
    intro headers i ms h
    cases hto : (cellStr row emailIdx).isEmpty with
    | true =>
      rw [sendLoop_cons_skip menv env p emailIdx sig headers i rest hto] at h
      exact ih headers (i + 1) ms h
    | false =>
      cases hf : env.sendFails i with
      | true =>
        rw [sendLoop_cons_fail menv env p emailIdx sig headers i rest hto hf] at h
        simp at h
      | false =>
        rw [sendLoop_cons_ok menv env p emailIdx sig headers i rest hto hf] at h
        simp only [List.mem_cons] at h
        rcases h with h | h | h | h | h
        · cases h
        · cases h
        · cases h
        · injection h with h1
          exact ⟨i, h1⟩
        · exact ih _ (i + 1) ms h

/-- `executeCampaignRun` on a nonempty snapshot, unfolded. -/
theorem executeCampaignRun_cons (menv : MailEnv) (env : RunEnv) (p : CampaignParams)
    (hrow : List Cell) (rows : List (List Cell)) :
    executeCampaignRun menv env p (hrow :: rows) =
      if findEmailColumnIndex (hrow.map headerCellStr) < 0 then RunResult.noEmailColumn
      else
        match sendLoop menv env p (findEmailColumnIndex (hrow.map headerCellStr)).toNat
            (if p.useSignature then env.signature else []) (hrow.map headerCellStr) 0 rows with
        | (evs, none) => RunResult.completed evs
        | (evs, some j) => RunResult.aborted evs j := rfl

/-- `campaignRecipient` on a nonempty snapshot, unfolded. -/
theorem campaignRecipient_cons (hrow : List Cell) (rows : List (List Cell)) (j : Nat) :
    campaignRecipient (hrow :: rows) j =
      if findEmailColumnIndex (hrow.map headerCellStr) < 0 then []
      else cellStr (rows.getD j []) (findEmailColumnIndex (hrow.map headerCellStr)).toNat :=
  rfl

/-- The recipient of a missing row is empty. -/
theorem cellStr_nil (i : Nat) : cellStr [] i = [] := rfl

/-- An aborted run comes from an aborted send loop over the data rows. -/
theorem executeCampaignRun_aborted_loop {menv : MailEnv} {env : RunEnv}
    {p : CampaignParams} {values : List (List Cell)} {evs : List RunEvent} {m : Nat}
    (h : executeCampaignRun menv env p values = RunResult.aborted evs m) :
    ∃ hrow rows, values = hrow :: rows ∧
      sendLoop menv env p (findEmailColumnIndex (hrow.map headerCellStr)).toNat
        (if p.useSignature then env.signature else []) (hrow.map headerCellStr) 0 rows =
        (evs, some m) := by
  cases values with
  | nil =>
    have h2 : RunResult.noData = RunResult.aborted evs m := h
    cases h2
  | cons hrow rows =>
    rw [executeCampaignRun_cons] at h
    by_cases hidx : findEmailColumnIndex (hrow.map headerCellStr) < 0
    · rw [if_pos hidx] at h
      cases h
    · rw [if_neg hidx] at h
      rcases hL : sendLoop menv env p (findEmailColumnIndex (hrow.map headerCellStr)).toNat
          (if p.useSignature then env.signature else []) (hrow.map headerCellStr) 0 rows
        with ⟨evs2, err⟩
      rw [hL] at h
      cases err with
      | none =>
        have h2 : RunResult.completed evs2 = RunResult.aborted evs m := h
        cases h2
      | some m2 =>
        have h2 : RunResult.aborted evs2 m2 = RunResult.aborted evs m := h
        injection h2 with he hm
        subst he
        subst hm
        exact ⟨hrow, rows, rfl, hL⟩

/-- A completed run comes from a completed send loop over the data rows. -/
theorem executeCampaignRun_completed_loop {menv : MailEnv} {env : RunEnv}
    {p : CampaignParams} {values : List (List Cell)} {evs : List RunEvent}
    (h : executeCampaignRun menv env p values = RunResult.completed evs) :
    ∃ hrow rows, values = hrow :: rows ∧
      ¬ findEmailColumnIndex (hrow.map headerCellStr) < 0 ∧
      sendLoop menv env p (findEmailColumnIndex (hrow.map headerCellStr)).toNat
        (if p.useSignature then env.signature else []) (hrow.map headerCellStr) 0 rows =
        (evs, none) := by
  cases values with
  | nil =>
    have h2 : RunResult.noData = RunResult.completed evs := h
    cases h2
  | cons hrow rows =>
    rw [executeCampaignRun_cons] at h
    by_cases hidx : findEmailColumnIndex (hrow.map headerCellStr) < 0
    · rw [if_pos hidx] at h
      cases h
    · rw [if_neg hidx] at h
      rcases hL : sendLoop menv env p (findEmailColumnIndex (hrow.map headerCellStr)).toNat
          (if p.useSignature then env.signature else []) (hrow.map headerCellStr) 0 rows
        with ⟨evs2, err⟩
      rw [hL] at h
      cases err with
      | none =>
        have h2 : RunResult.completed evs2 = RunResult.completed evs := h
        injection h2 with he
        subst he
        exact ⟨hrow, rows, rfl, hidx, hL⟩
      | some m2 =>
        have h2 : RunResult.aborted evs2 m2 = RunResult.completed evs := h
        cases h2

/-- Claim C1 (amended): the send call is NOT wrapped in a try/catch, so the
run is not partial-failure tolerant: when a row's send fails, the run aborts
— the failing row was attempted exactly once, the provider did fail it, and
no later row is ever attempted.  Only when every send succeeds does the run
attempt every row exactly once — namely the rows whose recipient cell is
non-empty (empty-recipient rows are silently skipped). -/
theorem campaign_abort_on_send_failure (menv : MailEnv) (env : RunEnv)
    (p : CampaignParams) (values : List (List Cell)) :
    (∀ evs m, executeCampaignRun menv env p values = RunResult.aborted evs m →
      env.sendFails m = true ∧ attemptCount evs m = 1 ∧
      ∀ k, m < k → attemptCount evs k = 0) ∧
    ((∀ i, env.sendFails i = false) →
      ∀ evs m, executeCampaignRun menv env p values ≠ RunResult.aborted evs m) ∧
    (∀ evs, executeCampaignRun menv env p values = RunResult.completed evs →
      ∀ j, attemptCount evs j =
        if (campaignRecipient values j).isEmpty = false then 1 else 0) := by
  have habort : ∀ evs m, executeCampaignRun menv env p values = RunResult.aborted evs m →
      env.sendFails m = true ∧ attemptCount evs m = 1 ∧
      ∀ k, m < k → attemptCount evs k = 0 := by
    intro evs m h
    obtain ⟨hrow, rows, -, hL⟩ := executeCampaignRun_aborted_loop h
    obtain ⟨hs, -, hc, hk⟩ := sendLoop_aborted_shape menv env p _ _ rows _ 0 evs m hL
    exact ⟨hs, hc, hk⟩
  refine ⟨habort, ?_, ?_⟩
  · intro hok evs m h
    have := (habort evs m h).1
    rw [hok m] at this
    cases this
  · intro evs h j
    obtain ⟨hrow, rows, hv, hidx, hL⟩ := executeCampaignRun_completed_loop h
    subst hv
    have hcount := sendLoop_completed_count menv env p _ _ rows _ 0 evs hL j
    rw [hcount, campaignRecipient_cons, if_neg hidx]
    by_cases hj : j < rows.length
    · have hiff : (0 ≤ j ∧ j - 0 < rows.length ∧
          (cellStr (rows.getD (j - 0) [])
            (findEmailColumnIndex (hrow.map headerCellStr)).toNat).isEmpty = false) ↔
          (cellStr (rows.getD j [])
            (findEmailColumnIndex (hrow.map headerCellStr)).toNat).isEmpty = false := by
        constructor
        · rintro ⟨-, -, w⟩
          simpa using w
        · intro w
          exact ⟨Nat.zero_le j, by simpa using hj, by simpa using w⟩
      rw [if_congr hiff rfl rfl]
    · have hgd : rows.getD j [] = [] := List.getD_eq_default rows [] (by omega)
      have hempty : (cellStr (rows.getD j [])
          (findEmailColumnIndex (hrow.map headerCellStr)).toNat).isEmpty = true := by
        rw [hgd, cellStr_nil]
        rfl
      have hn1 : ¬(0 ≤ j ∧ j - 0 < rows.length ∧
          (cellStr (rows.getD (j - 0) [])
            (findEmailColumnIndex (hrow.map headerCellStr)).toNat).isEmpty = false) := by
        rintro ⟨-, hlt, -⟩
        omega
      have hn2 : ¬(cellStr (rows.getD j [])
          (findEmailColumnIndex (hrow.map headerCellStr)).toNat).isEmpty = false := by
        rw [hempty]
        simp
      rw [if_neg hn1, if_neg hn2]

/-- Claim C1 counterexample: a concrete 3-row campaign whose second row's
send fails.  The run aborts: the trace stops at the attempt of row 1 and
row 2 (with a non-empty recipient) is never attempted, instead of being
caught, logged and continued as the claim states. -/
theorem campaign_abort_counterexample :
    executeCampaignRun menvC1 envC1 pC1 valuesC1 =
      RunResult.aborted
        [RunEvent.attempt 0 (sl "a@x"), RunEvent.sent 0, RunEvent.statusWrite 0 true,
         RunEvent.slept 5000, RunEvent.attempt 1 (sl "b@x")] 1 ∧
    (cellStr [some (sl "c@x")] 0).isEmpty = false ∧
    attemptCount
      [RunEvent.attempt 0 (sl "a@x"), RunEvent.sent 0, RunEvent.statusWrite 0 true,
       RunEvent.slept 5000, RunEvent.attempt 1 (sl "b@x")] 2 = 0 := by
  refine ⟨by decide, by decide, by decide⟩

/-- Witness for `campaign_abort_on_send_failure`, at the concrete aborted
run of `campaign_abort_counterexample` and at the same campaign with an
all-success provider. -/
theorem campaign_abort_on_send_failure_witness :
    (envC1.sendFails 1 = true ∧
      attemptCount
        [RunEvent.attempt 0 (sl "a@x"), RunEvent.sent 0, RunEvent.statusWrite 0 true,
         RunEvent.slept 5000, RunEvent.attempt 1 (sl "b@x")] 1 = 1 ∧
      ∀ k, 1 < k →
        attemptCount
          [RunEvent.attempt 0 (sl "a@x"), RunEvent.sent 0, RunEvent.statusWrite 0 true,
           RunEvent.slept 5000, RunEvent.attempt 1 (sl "b@x")] k = 0) ∧
    (∀ evs m, executeCampaignRun menvC1 envAllOk pC1 valuesC1 ≠ RunResult.aborted evs m) := by
  constructor
  · exact (campaign_abort_on_send_failure menvC1 envC1 pC1 valuesC1).1 _ 1 (by decide)
  · exact (campaign_abort_on_send_failure menvC1 envAllOk pC1 valuesC1).2.1
      (fun i => rfl)

/-- Claim C7 (confirmed): for a campaign whose `delaySeconds` is a supplied
nonzero value `n`, every sent row is followed (after its status write-back)
by a sleep of exactly `n * 1000` milliseconds plus a jitter in `[0, 2000)` —
in particular the pause between any two consecutive sent rows has that
shape. -/
theorem campaign_pacing (menv : MailEnv) (env : RunEnv) (p : CampaignParams)
    (values : List (List Cell)) (n : Nat) (hd : p.delaySeconds = some n) (hn : n ≠ 0) :
    ∀ evs : List RunEvent,
    ((∃ m, executeCampaignRun menv env p values = RunResult.aborted evs m) ∨
      executeCampaignRun menv env p values = RunResult.completed evs) →
    ∀ (a : List RunEvent) (j : Nat) (b : List RunEvent),
    evs = a ++ RunEvent.sent j :: b →
    ∃ ok jitter rest, jitter < 2000 ∧
      b = RunEvent.statusWrite j ok :: RunEvent.slept (n * 1000 + jitter) :: rest := by
  have heff : effectiveDelaySeconds p.delaySeconds = n := by
    rw [hd, effectiveDelaySeconds, if_neg hn]
  intro evs hres a j b hsplit
  have hloop : ∃ (hrow : List Cell) (rows : List (List Cell)),
      (sendLoop menv env p (findEmailColumnIndex (hrow.map headerCellStr)).toNat
        (if p.useSignature then env.signature else []) (hrow.map headerCellStr) 0 rows).1 =
        evs := by
    rcases hres with ⟨m, h⟩ | h
    · obtain ⟨hrow, rows, -, hL⟩ := executeCampaignRun_aborted_loop h
      exact ⟨hrow, rows, by rw [hL]⟩
    · obtain ⟨hrow, rows, -, -, hL⟩ := executeCampaignRun_completed_loop h
      exact ⟨hrow, rows, by rw [hL]⟩
  obtain ⟨hrow, rows, hL⟩ := hloop
  obtain ⟨ok, rest, hb⟩ := sendLoop_sent_followed menv env p _ _ rows _ 0 a j b
    (by rw [hL, hsplit])
  exact ⟨ok, env.jitterDraw j % 2000, rest,
    Nat.mod_lt _ (by omega), by rw [hb, heff]⟩

/-- Witness for `campaign_pacing`: the all-success 3-row campaign with a
5-second delay sleeps `5000 + jitter` right after its first sent row. -/
theorem campaign_pacing_witness :
    ∃ ok jitter rest, jitter < 2000 ∧
      (RunEvent.statusWrite 0 true :: RunEvent.slept 5000 ::
        RunEvent.attempt 1 (sl "b@x") :: RunEvent.sent 1 :: RunEvent.statusWrite 1 true ::
        RunEvent.slept 5000 :: RunEvent.attempt 2 (sl "c@x") :: RunEvent.sent 2 ::
        RunEvent.statusWrite 2 true :: RunEvent.slept 5000 :: ([] : List RunEvent)) =
      RunEvent.statusWrite 0 ok :: RunEvent.slept (5 * 1000 + jitter) :: rest := by
  refine campaign_pacing menvC1 envAllOk pC1 valuesC1 5 rfl (by decide)
    (RunEvent.attempt 0 (sl "a@x") :: RunEvent.sent 0 :: RunEvent.statusWrite 0 true ::
      RunEvent.slept 5000 :: RunEvent.attempt 1 (sl "b@x") :: RunEvent.sent 1 ::
      RunEvent.statusWrite 1 true :: RunEvent.slept 5000 ::
      RunEvent.attempt 2 (sl "c@x") :: RunEvent.sent 2 :: RunEvent.statusWrite 2 true ::
      RunEvent.slept 5000 :: [])
    (Or.inr (by decide)) [RunEvent.attempt 0 (sl "a@x")] 0 _ (by decide)

/-- Claim C10 (confirmed): when `delaySeconds` is absent, null or zero the
runner substitutes the default of 5 seconds — every inter-send pause is
`5000` milliseconds plus a jitter in `[0, 2000)` — and for every campaign
whatsoever every pause is at least 1000 ms, never zero: a caller cannot
request a zero inter-send delay. -/
theorem campaign_default_delay (menv : MailEnv) (env : RunEnv) (p : CampaignParams)
    (values : List (List Cell)) :
    ((p.delaySeconds = none ∨ p.delaySeconds = some 0) →
      ∀ evs : List RunEvent,
      ((∃ m, executeCampaignRun menv env p values = RunResult.aborted evs m) ∨
        executeCampaignRun menv env p values = RunResult.completed evs) →
      ∀ ms, RunEvent.slept ms ∈ evs → ∃ jitter, jitter < 2000 ∧ ms = 5000 + jitter) ∧
    (∀ evs : List RunEvent,
      ((∃ m, executeCampaignRun menv env p values = RunResult.aborted evs m) ∨
        executeCampaignRun menv env p values = RunResult.completed evs) →
      ∀ ms, RunEvent.slept ms ∈ evs → 1000 ≤ ms ∧ ms ≠ 0) := by
  have hshape : ∀ evs : List RunEvent,
      ((∃ m, executeCampaignRun menv env p values = RunResult.aborted evs m) ∨
        executeCampaignRun menv env p values = RunResult.completed evs) →
      ∀ ms, RunEvent.slept ms ∈ evs →
      ∃ j, ms = effectiveDelaySeconds p.delaySeconds * 1000 + env.jitterDraw j % 2000 := by
    intro evs hres ms hmem
    have hloop : ∃ (hrow : List Cell) (rows : List (List Cell)),
        (sendLoop menv env p (findEmailColumnIndex (hrow.map headerCellStr)).toNat
          (if p.useSignature then env.signature else []) (hrow.map headerCellStr) 0 rows).1 =
          evs := by
      rcases hres with ⟨m, h⟩ | h
      · obtain ⟨hrow, rows, -, hL⟩ := executeCampaignRun_aborted_loop h
        exact ⟨hrow, rows, by rw [hL]⟩
      · obtain ⟨hrow, rows, -, -, hL⟩ := executeCampaignRun_completed_loop h
        exact ⟨hrow, rows, by rw [hL]⟩
    obtain ⟨hrow, rows, hL⟩ := hloop
    exact sendLoop_slept_shape menv env p _ _ rows _ 0 ms (by rw [hL]; exact hmem)
  constructor
  · intro hdef evs hres ms hmem
    obtain ⟨j, hj⟩ := hshape evs hres ms hmem
    have heff : effectiveDelaySeconds p.delaySeconds = 5 := by
      rcases hdef with hdef | hdef <;> rw [hdef] <;> rfl
    exact ⟨env.jitterDraw j % 2000, Nat.mod_lt _ (by omega), by rw [hj, heff]⟩
  · intro evs hres ms hmem
    obtain ⟨j, hj⟩ := hshape evs hres ms hmem
    have heff : 1 ≤ effectiveDelaySeconds p.delaySeconds := by
      rcases hde : p.delaySeconds with _ | k
      · rw [effectiveDelaySeconds]
        omega
      · rw [effectiveDelaySeconds]
        by_cases hk : k = 0
        · rw [if_pos hk]
          omega
        · rw [if_neg hk]
          omega
    constructor
    · rw [hj]
      have : 1000 ≤ effectiveDelaySeconds p.delaySeconds * 1000 := by omega
      omega
    · rw [hj]
      omega

/-- Witness for `campaign_default_delay`: the 3-row campaign with no
`delaySeconds` sleeps `5000 + jitter` (and never zero). -/
theorem campaign_default_delay_witness :
    (∃ jitter, jitter < 2000 ∧ 5000 = 5000 + jitter) ∧
    (1000 ≤ 5000 ∧ 5000 ≠ 0) := by
  have h := campaign_default_delay menvC1 envAllOk pC1none valuesC1
  constructor
  · exact h.1 (Or.inl rfl)
      (RunEvent.attempt 0 (sl "a@x") :: RunEvent.sent 0 :: RunEvent.statusWrite 0 true ::
        RunEvent.slept 5000 :: RunEvent.attempt 1 (sl "b@x") :: RunEvent.sent 1 ::
        RunEvent.statusWrite 1 true :: RunEvent.slept 5000 ::
        RunEvent.attempt 2 (sl "c@x") :: RunEvent.sent 2 :: RunEvent.statusWrite 2 true ::
        RunEvent.slept 5000 :: [])
      (Or.inr (by decide)) 5000 (by decide)
  · exact h.2
      (RunEvent.attempt 0 (sl "a@x") :: RunEvent.sent 0 :: RunEvent.statusWrite 0 true ::
        RunEvent.slept 5000 :: RunEvent.attempt 1 (sl "b@x") :: RunEvent.sent 1 ::
        RunEvent.statusWrite 1 true :: RunEvent.slept 5000 ::
        RunEvent.attempt 2 (sl "c@x") :: RunEvent.sent 2 :: RunEvent.statusWrite 2 true ::
        RunEvent.slept 5000 :: [])
      (Or.inr (by decide)) 5000 (by decide)

/-! ## Counting occurrences across concatenations -/

/-- Appending after a character outside the pattern does not change whether
the pattern is a prefix. -/
theorem isPrefixOf_append_cons_eq (pat x : List Char) {hb : Char} (tb : List Char)
    (h : hb ∉ pat) :
    pat.isPrefixOf (x ++ hb :: tb) = pat.isPrefixOf x := by
  cases hpre : pat.isPrefixOf x with
  | true =>
    exact List.isPrefixOf_iff_prefix.mpr
      ((List.isPrefixOf_iff_prefix.mp hpre).trans (List.prefix_append x _))
  | false =>
    cases hpre2 : pat.isPrefixOf (x ++ hb :: tb) with
    | false => rfl
    | true =>
      exfalso
      obtain ⟨r, hr⟩ := List.isPrefixOf_iff_prefix.mp hpre2
      rcases List.append_eq_append_iff.mp hr with ⟨e, hx, -⟩ | ⟨e, hpat, hrest⟩
      · rw [List.isPrefixOf_iff_prefix.mpr ⟨e, hx.symm⟩] at hpre
        cases hpre
      · cases e with
        | nil =>
          rw [List.isPrefixOf_iff_prefix.mpr ⟨[], by simp [hpat]⟩] at hpre
          cases hpre
        | cons hc ct =>
          have hbc : hb = hc := (List.cons.injEq .. ▸ hrest).1
          have hmem : hb ∈ pat := by
            rw [hpat, hbc]
            exact List.mem_append.mpr (Or.inr (List.mem_cons_self _ _))
          exact h hmem

/-- Occurrences split around a junction whose right side starts with a
character outside the pattern. -/
theorem countOccur_append_head_out {pat : List Char} {hb : Char} (h : hb ∉ pat)
    (a tb : List Char) :
    countOccur (a ++ hb :: tb) pat =
      countOccur a pat + countOccur (hb :: tb) pat := by
  induction a with
  | nil => simp [countOccur]
  | cons c t ih =>
    have hpre := isPrefixOf_append_cons_eq pat (c :: t) tb h
    simp only [List.cons_append] at hpre ⊢
    rw [countOccur, countOccur, hpre, ih]
    omega

/-- A pattern starting with `hp` matches nowhere in a string without `hp`. -/
theorem countOccur_cons_ne {hp c : Char} {pt : List Char} (h : hp ≠ c)
    (t : List Char) :
    countOccur (c :: t) (hp :: pt) = countOccur t (hp :: pt) := by
  rw [countOccur]
  have hfalse : (hp :: pt).isPrefixOf (c :: t) = false := by
    cases hq : (hp :: pt).isPrefixOf (c :: t) with
    | false => rfl
    | true =>
      exfalso
      obtain ⟨r, hr⟩ := List.isPrefixOf_iff_prefix.mp hq
      simp only [List.cons_append] at hr
      exact h (List.cons.injEq .. ▸ hr).1
  rw [hfalse]
  simp

/-- Skipping a left part that avoids the pattern's first character. -/
theorem countOccur_append_head_missing {hp : Char} {pt : List Char} (a : List Char)
    (h : hp ∉ a) (b : List Char) :
    countOccur (a ++ b) (hp :: pt) = countOccur b (hp :: pt) := by
  induction a with
  | nil => rfl
  | cons c t ih =>
    have hc : hp ≠ c := fun he => h (he ▸ List.mem_cons_self c t)
    rw [List.cons_append, countOccur_cons_ne hc, ih (fun hm => h (List.mem_cons_of_mem c hm))]

/-- A string led by the pattern itself (whose first character does not recur
inside it) contributes exactly one occurrence at its start. -/
theorem countOccur_self_lead {hp : Char} {pt : List Char} (h : hp ∉ pt) (r : List Char) :
    countOccur ((hp :: pt) ++ r) (hp :: pt) = 1 + countOccur r (hp :: pt) := by
  rw [List.cons_append, countOccur]
  have h1 : (hp :: pt).isPrefixOf (hp :: (pt ++ r)) = true :=
    List.isPrefixOf_iff_prefix.mpr ⟨r, by simp⟩
  rw [h1, countOccur_append_head_missing pt h r]
  simp

/-- A string missing some character of the pattern contains no occurrence. -/
theorem countOccur_eq_zero_of_char {pat s : List Char} {c : Char} (hc : c ∈ pat)
    (hs : c ∉ s) : countOccur s pat = 0 := by
  induction s with
  | nil => rfl
  | cons d t ih =>
    rw [countOccur]
    cases hpp : pat.isPrefixOf (d :: t) with
    | true =>
      exfalso
      exact hs ((List.isPrefixOf_iff_prefix.mp hpp).subset hc)
    | false =>
      rw [ih (fun hm => hs (List.mem_cons_of_mem d hm))]
      simp

/-- Counting across a CRLF-joined segment list: occurrences of a pattern
that avoids carriage return and line feed sum segmentwise. -/
theorem countOccur_joinWith_crlf {hp : Char} {pt : List Char} (h1 : hp ≠ '\r')
    (h2 : hp ≠ '\n') (hr : ('\r' : Char) ∉ hp :: pt) :
    ∀ segs : List (List Char),
    countOccur (joinWith CRLF segs) (hp :: pt) =
      (segs.map (fun l => countOccur l (hp :: pt))).sum := by
  intro segs
  induction segs with
  | nil => rfl
  | cons x t ih =>
    cases t with
    | nil => simp [joinWith]
    | cons y t2 =>
      rw [joinWith_cons _ _ (by simp)]
      have hx : x ++ CRLF ++ joinWith CRLF (y :: t2) =
          x ++ '\r' :: '\n' :: joinWith CRLF (y :: t2) := by
        simp [CRLF]
      rw [hx, countOccur_append_head_out hr, countOccur_cons_ne h1,
        countOccur_cons_ne h2, ih]
      simp

/-! ## The base64 payload cannot contain the attachment marker -/

/-- Base64 digits are never a colon. -/
theorem b64char_ne_colon (n : Nat) : b64char n ≠ ':' := by
  rw [b64char, List.getD_eq_getElem?_getD]
  rcases hg : base64Chars[n]? with _ | x
  · simp
  · have hx : x ∈ base64Chars := by
      obtain ⟨hlt, he⟩ := List.getElem?_eq_some_iff.mp hg
      exact he ▸ List.getElem_mem hlt
    simp only [Option.getD_some]
    intro he
    rw [he] at hx
    simp [base64Chars, sl] at hx

/-- Base64-encoded data contains no colon. -/
theorem b64encode_no_colon : ∀ data : List Nat, ':' ∉ b64encode data := by
  intro data
  induction data using b64encode.induct with
  | case1 => simp [b64encode]
  | case2 a =>
    intro hmem
    simp only [b64encode, List.mem_cons, List.not_mem_nil, or_false] at hmem
    rcases hmem with h | h | h | h
    · exact b64char_ne_colon _ h.symm
    · exact b64char_ne_colon _ h.symm
    · exact absurd h (by decide)
    · exact absurd h (by decide)
  | case3 a b =>
    intro hmem
    simp only [b64encode, List.mem_cons, List.not_mem_nil, or_false] at hmem
    rcases hmem with h | h | h | h
    · exact b64char_ne_colon _ h.symm
    · exact b64char_ne_colon _ h.symm
    · exact b64char_ne_colon _ h.symm
    · exact absurd h (by decide)
  | case4 a b c t ih =>
    intro hmem
    simp only [b64encode, List.mem_cons] at hmem
    rcases hmem with h | h | h | h | h
    · exact b64char_ne_colon _ h.symm
    · exact b64char_ne_colon _ h.symm
    · exact b64char_ne_colon _ h.symm
    · exact b64char_ne_colon _ h.symm
    · exact ih h

/-- Characters of the 76-column wrapping come from the input or the CRLF. -/
theorem wrap76Go_mem : ∀ (fuel : Nat) (s : List Char) (c : Char),
    c ∈ wrap76Go fuel s → c ∈ s ∨ c = '\r' ∨ c = '\n' := by
  intro fuel
  induction fuel with
  | zero => intro s c h; exact Or.inl h
  | succ fuel ih =>
    intro s c h
    cases s with
    | nil => simp [wrap76Go] at h
    | cons x t =>
      rw [wrap76Go.eq_def] at h
      simp only [CRLF, List.mem_append, List.mem_cons, List.not_mem_nil, or_false,
        or_assoc] at h
      rcases h with h | h | h | h
      · exact Or.inl (List.take_subset _ _ h)
      · exact Or.inr (Or.inl h)
      · exact Or.inr (Or.inr h)
      · rcases ih _ c h with hm | hm
        · exact Or.inl (List.drop_subset _ _ hm)
        · exact Or.inr hm

/-- The wrapped base64 body of an attachment contains no occurrence of the
`Content-Disposition` marker (it has no colon at all). -/
theorem countOccur_wrapped_b64 (data : List Nat) :
    countOccur (wrap76 (b64encode data)) cdMarker = 0 := by
  refine @countOccur_eq_zero_of_char cdMarker (wrap76 (b64encode data)) ':' (by decide) ?_
  intro hmem
  rcases wrap76Go_mem _ _ _ hmem with h | h | h
  · exact b64encode_no_colon data h
  · cases h
  · cases h

/-- `cdMarker` in head/tail form. -/
theorem cdMarker_cons : cdMarker = 'C' :: sl "ontent-Disposition: attachment" := by decide

/-- `bMarker` in head/tail form. -/
theorem bMarker_cons : bMarker = 'b' :: sl "oundary=" := by decide

/-- Segmentwise counting of the attachment marker across CRLF junctions. -/
theorem countOccur_joinWith_cd (segs : List (List Char)) :
    countOccur (joinWith CRLF segs) cdMarker =
      (segs.map (fun l => countOccur l cdMarker)).sum := by
  rw [cdMarker_cons]
  exact countOccur_joinWith_crlf (by decide) (by decide) (by decide) segs

/-- Segmentwise counting of the boundary marker across CRLF junctions. -/
theorem countOccur_joinWith_bm (segs : List (List Char)) :
    countOccur (joinWith CRLF segs) bMarker =
      (segs.map (fun l => countOccur l bMarker)).sum := by
  rw [bMarker_cons]
  exact countOccur_joinWith_crlf (by decide) (by decide) (by decide) segs

/-- The `Content-Disposition` line splits off the marker. -/
theorem dispLine_split (fn : List Char) :
    sl "Content-Disposition: attachment; filename=\"" ++ fn ++ sl "\"" =
      cdMarker ++ (sl "; filename=\"" ++ fn ++ sl "\"") := by
  have h : sl "Content-Disposition: attachment; filename=\"" =
      cdMarker ++ sl "; filename=\"" := by decide
  rw [h]
  simp [List.append_assoc]

/-- A readable attachment's MIME part contributes exactly one occurrence of
the attachment marker (given marker-free type/name lines). -/
theorem countOccur_attachmentPart {menv : MailEnv} {boundary p : List Char}
    {data : List Nat} (hread : menv.fsRead p = some data)
    (hct : countOccur (sl "Content-Type: " ++ ctypeFor menv (basename p) ++
      sl "; name=\"" ++ basename p ++ sl "\"") cdMarker = 0)
    (hfn : countOccur (sl "; filename=\"" ++ basename p ++ sl "\"") cdMarker = 0)
    (hdash : countOccur (sl "--" ++ boundary) cdMarker = 0) :
    ∀ z, countOccur (attachmentPart menv boundary p ++ z) cdMarker =
      1 + countOccur z cdMarker := by
  intro z
  have hdecomp : attachmentPart menv boundary p ++ z = joinWith CRLF
      [sl "--" ++ boundary,
       sl "Content-Type: " ++ ctypeFor menv (basename p) ++ sl "; name=\"" ++
         basename p ++ sl "\"",
       sl "Content-Transfer-Encoding: base64",
       sl "Content-Disposition: attachment; filename=\"" ++ basename p ++ sl "\"",
       [],
       wrap76 (b64encode data),
       z] := by
    rw [attachmentPart, hread]
    simp [joinWith, List.append_assoc]
  rw [hdecomp, countOccur_joinWith_cd]
  have hdisp : countOccur (sl "Content-Disposition: attachment; filename=\"" ++
      basename p ++ sl "\"") cdMarker = 1 + countOccur
      (sl "; filename=\"" ++ basename p ++ sl "\"") cdMarker := by
    rw [dispLine_split, cdMarker_cons]
    exact countOccur_self_lead (by decide) _
  have henc : countOccur (sl "Content-Transfer-Encoding: base64") cdMarker = 0 := by
    decide
  simp only [List.map_cons, List.map_nil, List.sum_cons, List.sum_nil]
  rw [hct, hdash, hdisp, hfn, countOccur_wrapped_b64, henc]
  simp [countOccur]

/-- Concatenated attachment parts contribute one marker occurrence per
readable, marker-clean attachment. -/
theorem countOccur_attachmentParts {menv : MailEnv} {boundary : List Char}
    (hdash : countOccur (sl "--" ++ boundary) cdMarker = 0) :
    ∀ (atts : List (List Char)) (z : List Char),
    (∀ q ∈ atts, (∃ d, menv.fsRead q = some d) ∧
      countOccur (sl "Content-Type: " ++ ctypeFor menv (basename q) ++
        sl "; name=\"" ++ basename q ++ sl "\"") cdMarker = 0 ∧
      countOccur (sl "; filename=\"" ++ basename q ++ sl "\"") cdMarker = 0) →
    countOccur (attachmentParts menv boundary atts ++ z) cdMarker =
      atts.length + countOccur z cdMarker := by
  intro atts
  induction atts with
  | nil =>
    intro z _
    simp [attachmentParts]
  | cons q t ih =>
    intro z hclean
    obtain ⟨⟨d, hd⟩, hct, hfn⟩ := hclean q (List.mem_cons_self q t)
    have hrest : ∀ q2 ∈ t, (∃ d2, menv.fsRead q2 = some d2) ∧
        countOccur (sl "Content-Type: " ++ ctypeFor menv (basename q2) ++
          sl "; name=\"" ++ basename q2 ++ sl "\"") cdMarker = 0 ∧
        countOccur (sl "; filename=\"" ++ basename q2 ++ sl "\"") cdMarker = 0 :=
      fun q2 hm => hclean q2 (List.mem_cons_of_mem q hm)
    rw [attachmentParts, List.append_assoc,
      countOccur_attachmentPart hd hct hfn hdash, ih z hrest]
    simp [List.length_cons]
    omega

/-- Splicing a blank line between two CRLF-joined segment lists. -/
theorem joinWith_append_blank (M : List (List Char)) (hM : M ≠ []) :
    ∀ L : List (List Char), L ≠ [] →
    joinWith CRLF (L ++ [] :: M) =
      joinWith CRLF L ++ CRLF ++ CRLF ++ joinWith CRLF M := by
  intro L
  induction L with
  | nil => intro h; exact absurd rfl h
  | cons x t ih =>
    intro _
    cases t with
    | nil =>
      have h1 : [x] ++ [] :: M = x :: [] :: M := by simp
      rw [h1, joinWith_cons _ _ (by simp), joinWith_cons _ _ hM]
      simp [joinWith, List.append_assoc]
    | cons y t2 =>
      rw [List.cons_append, joinWith_cons _ _ (by simp), joinWith_cons _ _ (by simp),
        ih (by simp)]
      simp [List.append_assoc]

/-- Counting across a blank line. -/
theorem countOccur_blank_split {hp : Char} {pt : List Char} (h1 : hp ≠ '\r')
    (h2 : hp ≠ '\n') (hr : ('\r' : Char) ∉ hp :: pt) (X Y : List Char) :
    countOccur (X ++ CRLF ++ CRLF ++ Y) (hp :: pt) =
      countOccur X (hp :: pt) + countOccur Y (hp :: pt) := by
  have hshape : X ++ CRLF ++ CRLF ++ Y = X ++ '\r' :: '\n' :: '\r' :: '\n' :: Y := by
    simp [CRLF]
  rw [hshape, countOccur_append_head_out hr, countOccur_cons_ne h1,
    countOccur_cons_ne h2, countOccur_cons_ne h1, countOccur_cons_ne h2]

/-- Counting the attachment marker across a blank line. -/
theorem countOccur_blank_split_cd (X Y : List Char) :
    countOccur (X ++ CRLF ++ CRLF ++ Y) cdMarker =
      countOccur X cdMarker + countOccur Y cdMarker := by
  rw [cdMarker_cons]
  exact countOccur_blank_split (by decide) (by decide) (by decide) X Y

/-- Counting the boundary marker across a blank line. -/
theorem countOccur_blank_split_bm (X Y : List Char) :
    countOccur (X ++ CRLF ++ CRLF ++ Y) bMarker =
      countOccur X bMarker + countOccur Y bMarker := by
  rw [bMarker_cons]
  exact countOccur_blank_split (by decide) (by decide) (by decide) X Y

/-- The header block is marker-free when its variable lines are. -/
theorem baseHeaders_count_sum {pat : List Char} (from_ : Cell)
    (toAddr subject : List Char)
    (hTo : countOccur (sl "To: " ++ toAddr) pat = 0)
    (hSub : countOccur (sl "Subject: " ++ subject) pat = 0)
    (hFrom : ∀ f, from_ = some f → countOccur (sl "From: " ++ f) pat = 0)
    (hMime : countOccur (sl "MIME-Version: 1.0") pat = 0) :
    ((baseHeaders from_ toAddr subject).map (fun l => countOccur l pat)).sum = 0 := by
  rcases from_ with _ | f
  · simp [baseHeaders, hTo, hSub, hMime]
  · by_cases hf : f.isEmpty
    · simp [baseHeaders, hf, hTo, hSub, hMime]
    · simp [baseHeaders, hf, hTo, hSub, hMime, hFrom f rfl]

/-- Claim C5: for every from/to/subject/body whose header lines and body are
free of the relevant marker text, `buildRawEmail` with an empty attachment
list yields a payload with no MIME boundary marker, and with any list of N
readable attachment paths (whose type and name lines are marker-free, the
random boundary token likewise) yields exactly N occurrences of the text
`Content-Disposition: attachment`. -/
theorem buildRawEmail_marker_counts (menv : MailEnv) (from_ : Cell)
    (toAddr subject text : List Char) :
    (countOccur (sl "To: " ++ toAddr) bMarker = 0 →
     countOccur (sl "Subject: " ++ subject) bMarker = 0 →
     (∀ f, from_ = some f → countOccur (sl "From: " ++ f) bMarker = 0) →
     countOccur text bMarker = 0 →
     containsSub (buildRawEmail menv from_ toAddr subject text []) bMarker = false) ∧
    (∀ attachments : List (List Char),
     countOccur (sl "To: " ++ toAddr) cdMarker = 0 →
     countOccur (sl "Subject: " ++ subject) cdMarker = 0 →
     (∀ f, from_ = some f → countOccur (sl "From: " ++ f) cdMarker = 0) →
     countOccur text cdMarker = 0 →
     countOccur (sl "Content-Type: multipart/mixed; boundary=\"" ++
       (sl "mixed_" ++ menv.boundaryRand) ++ sl "\"") cdMarker = 0 →
     countOccur (sl "--" ++ (sl "mixed_" ++ menv.boundaryRand)) cdMarker = 0 →
     countOccur (sl "--" ++ (sl "mixed_" ++ menv.boundaryRand) ++ sl "--") cdMarker = 0 →
     (∀ q ∈ attachments, (∃ d, menv.fsRead q = some d) ∧
       countOccur (sl "Content-Type: " ++ ctypeFor menv (basename q) ++
         sl "; name=\"" ++ basename q ++ sl "\"") cdMarker = 0 ∧
       countOccur (sl "; filename=\"" ++ basename q ++ sl "\"") cdMarker = 0) →
     countOccur (buildRawEmail menv from_ toAddr subject text attachments) cdMarker =
       attachments.length) := by
  constructor
  · intro hTo hSub hFrom hText
    rw [← countOccur_eq_zero_iff _ (show bMarker ≠ [] by decide)]
    have hpayload : buildRawEmail menv from_ toAddr subject text [] =
        joinWith CRLF (baseHeaders from_ toAddr subject ++
          [sl "Content-Type: text/plain; charset=\"UTF-8\"",
           sl "Content-Transfer-Encoding: 7bit"]) ++ CRLF ++ CRLF ++ text := rfl
    rw [hpayload, countOccur_blank_split_bm, countOccur_joinWith_bm,
      List.map_append, List.sum_append,
      baseHeaders_count_sum from_ toAddr subject hTo hSub hFrom (by decide), hText]
    decide
  · intro atts hTo hSub hFrom hText hmp hdash hclose hclean
    cases atts with
    | nil =>
      have hpayload : buildRawEmail menv from_ toAddr subject text [] =
          joinWith CRLF (baseHeaders from_ toAddr subject ++
            [sl "Content-Type: text/plain; charset=\"UTF-8\"",
             sl "Content-Transfer-Encoding: 7bit"]) ++ CRLF ++ CRLF ++ text := rfl
      rw [hpayload, countOccur_blank_split_cd, countOccur_joinWith_cd,
        List.map_append, List.sum_append,
        baseHeaders_count_sum from_ toAddr subject hTo hSub hFrom (by decide), hText]
      decide
    | cons a t =>
      have hpayload : buildRawEmail menv from_ toAddr subject text (a :: t) =
          joinWith CRLF (baseHeaders from_ toAddr subject ++
            [sl "Content-Type: multipart/mixed; boundary=\"" ++
              (sl "mixed_" ++ menv.boundaryRand) ++ sl "\""]) ++ CRLF ++ CRLF ++
          (sl "--" ++ (sl "mixed_" ++ menv.boundaryRand) ++ CRLF ++
           sl "Content-Type: text/plain; charset=\"UTF-8\"" ++ CRLF ++
           sl "Content-Transfer-Encoding: 7bit" ++ CRLF ++ CRLF ++
           text ++ CRLF ++
           attachmentParts menv (sl "mixed_" ++ menv.boundaryRand) (a :: t) ++
           sl "--" ++ (sl "mixed_" ++ menv.boundaryRand) ++ sl "--" ++ CRLF) := rfl
      have hbody : sl "--" ++ (sl "mixed_" ++ menv.boundaryRand) ++ CRLF ++
           sl "Content-Type: text/plain; charset=\"UTF-8\"" ++ CRLF ++
           sl "Content-Transfer-Encoding: 7bit" ++ CRLF ++ CRLF ++
           text ++ CRLF ++
           attachmentParts menv (sl "mixed_" ++ menv.boundaryRand) (a :: t) ++
           sl "--" ++ (sl "mixed_" ++ menv.boundaryRand) ++ sl "--" ++ CRLF =
          joinWith CRLF
            [sl "--" ++ (sl "mixed_" ++ menv.boundaryRand),
             sl "Content-Type: text/plain; charset=\"UTF-8\"",
             sl "Content-Transfer-Encoding: 7bit",
             [],
             text,
             attachmentParts menv (sl "mixed_" ++ menv.boundaryRand) (a :: t) ++
               (sl "--" ++ (sl "mixed_" ++ menv.boundaryRand) ++ sl "--" ++ CRLF)] := by
        simp [joinWith, List.append_assoc]
      have hclosing : countOccur (sl "--" ++ (sl "mixed_" ++ menv.boundaryRand) ++
          sl "--" ++ CRLF) cdMarker = 0 := by
        have hsh : sl "--" ++ (sl "mixed_" ++ menv.boundaryRand) ++ sl "--" ++ CRLF =
            (sl "--" ++ (sl "mixed_" ++ menv.boundaryRand) ++ sl "--") ++
              '\r' :: ['\n'] := rfl
        rw [hsh, countOccur_append_head_out (show ('\r' : Char) ∉ cdMarker by decide),
          hclose]
        decide
      have hctp : countOccur (sl "Content-Type: text/plain; charset=\"UTF-8\"")
          cdMarker = 0 := by decide
      have henc7 : countOccur (sl "Content-Transfer-Encoding: 7bit") cdMarker = 0 := by
        decide
      rw [hpayload, countOccur_blank_split_cd, countOccur_joinWith_cd,
        List.map_append, List.sum_append,
        baseHeaders_count_sum from_ toAddr subject hTo hSub hFrom (by decide),
        hbody, countOccur_joinWith_cd]
      simp only [List.map_cons, List.map_nil, List.sum_cons, List.sum_nil]
      rw [hmp, hdash, hText, hctp, henc7,
        countOccur_attachmentParts hdash (a :: t) _ hclean, hclosing]
      simp [countOccur]

/-- Witness for C5 at a concrete environment: the attachment-free payload has
no boundary marker, and one readable attachment yields exactly one
`Content-Disposition: attachment`. -/
theorem buildRawEmail_marker_counts_witness :
    containsSub (buildRawEmail menvC5 none (sl "a@x") (sl "hi") (sl "b") [])
      bMarker = false ∧
    countOccur (buildRawEmail menvC5 none (sl "a@x") (sl "hi") (sl "b")
      [sl "/tmp/f.bin"]) cdMarker = 1 := by
  have h := buildRawEmail_marker_counts menvC5 none (sl "a@x") (sl "hi") (sl "b")
  constructor
  · exact h.1 (by decide) (by decide) (fun f hf => by cases hf) (by decide)
  · have h2 := h.2 [sl "/tmp/f.bin"] (by decide) (by decide)
      (fun f hf => by cases hf) (by decide) (by decide) (by decide) (by decide)
      (by
        intro q hq
        have hq2 : q = sl "/tmp/f.bin" := by simpa using hq
        subst hq2
        exact ⟨⟨[0, 1, 2], rfl⟩, by decide, by decide⟩)
    simpa using h2
